import Mathlib

/-! Verification of the VED_jurchecker matching pipeline.

A shallow embedding of `src/jur_checker.py` (the `AliasExpander` and
`JurChecker` classes) in Lean 4, together with theorems settling the
frozen claims about the natural-language specification.

Python strings are modelled as `List Char` (one element per code point,
so `len` coincides with `List.length`).  The external libraries
(`pymorphy3`, `transliterate`) are modelled as parameters: the embedding
takes a morphological analyzer and a transliteration function as inputs
and is proved correct for every choice of them, mirroring the fact that
the Python code treats them as opaque oracles.
-/

namespace JurCheck

/-- Python strings, one entry per code point. -/
abbrev Str := List Char

/-- Coerce a Lean string literal to the `List Char` model. -/
def str (s : String) : Str := s.data

/-- Python `str.isspace` / the `\s` class of `re`, restricted to the six
ASCII whitespace characters that `\s` always matches. -/
def isWS (c : Char) : Bool :=
  c == ' ' || c == '\t' || c == '\n' || c == '\x0d' || c == '\x0b' || c == '\x0c'

/-- Python `str.lower`, modelled on the ASCII and Cyrillic ranges the
registry uses (Latin A-Z, Cyrillic А-Я and Ѐ-Џ which includes Ё). -/
def lowerChar (c : Char) : Char :=
  if 65 ≤ c.toNat ∧ c.toNat ≤ 90 then Char.ofNat (c.toNat + 32)
  else if 1040 ≤ c.toNat ∧ c.toNat ≤ 1071 then Char.ofNat (c.toNat + 32)
  else if 1024 ≤ c.toNat ∧ c.toNat ≤ 1039 then Char.ofNat (c.toNat + 80)
  else c

/-- The `ё → е` replacement of `str.replace('ё', 'е')`. -/
def yoChar (c : Char) : Char :=
  if c = 'ё' then 'е' else c

/-- `s.lower()` on a whole string. -/
def lowerStr (l : Str) : Str := l.map lowerChar

/-- `s.replace('ё', 'е')` on a whole string. -/
def yoStr (l : Str) : Str := l.map yoChar

/-- `re.sub(r'\s+', ' ', s)`: replace every maximal run of whitespace by
a single space. -/
def collapseWS : Str → Str
  | [] => []
  | [c] => if isWS c then [' '] else [c]
  | c1 :: c2 :: rest =>
    if isWS c1 && isWS c2 then collapseWS (c2 :: rest)
    else (if isWS c1 then ' ' else c1) :: collapseWS (c2 :: rest)

/-- Python `str.strip()`: drop leading and trailing whitespace. -/
def stripWS (l : Str) : Str :=
  ((l.dropWhile isWS).reverse.dropWhile isWS).reverse

/-- `AliasExpander.normalize_alias` (src/jur_checker.py:474):
lowercase, `ё → е`, collapse whitespace runs to one space, trim. -/
def normalize_alias (l : Str) : Str :=
  stripWS (collapseWS (yoStr (lowerStr l)))

/-- `JurChecker._normalize_text` (src/jur_checker.py:1116):
`text.lower().replace('ё', 'е')` — no whitespace handling. -/
def normalize_text (l : Str) : Str :=
  yoStr (lowerStr l)

/-- Worker for `pySplit`: `cur` is the reversed current word. -/
def pySplitAux : Str → Str → List Str
  | [], cur => if cur.isEmpty then [] else [cur.reverse]
  | c :: rest, cur =>
    if isWS c then
      if cur.isEmpty then pySplitAux rest []
      else cur.reverse :: pySplitAux rest []
    else pySplitAux rest (c :: cur)

/-- Python `str.split()` with no argument: split on whitespace runs,
dropping empty fields. -/
def pySplit (l : Str) : List Str := pySplitAux l []

/-- No two adjacent whitespace characters. -/
def noTwoWS : Str → Bool
  | [] => true
  | [_] => true
  | c1 :: c2 :: rest => !(isWS c1 && isWS c2) && noTwoWS (c2 :: rest)

/-- Output of `collapseWS`: whitespace only as single interior-or-exterior
spaces, never two adjacent whitespace characters. -/
def Collapsed (l : Str) : Prop :=
  (∀ c ∈ l, isWS c = true → c = ' ') ∧ noTwoWS l = true

instance decidableCollapsed (l : Str) : Decidable (Collapsed l) :=
  decidable_of_iff ((∀ c ∈ l, isWS c = true → c = ' ') ∧ noTwoWS l = true) Iff.rfl

/-- List-level substring test (`pat in s` in Python). -/
def isSub (pat l : Str) : Bool := decide (pat <:+: l)

/-- Python `str.isdigit`, on the ASCII digits the registry data uses. -/
def isDigitCh (c : Char) : Bool := decide (48 ≤ c.toNat ∧ c.toNat ≤ 57)

/-- The Cyrillic block test `'Ѐ' <= c <= 'ӿ'`. -/
def isCyr (c : Char) : Bool := decide (1024 ≤ c.toNat ∧ c.toNat ≤ 1279)

/-- Python `str.isalnum`, modelled on the ASCII (letters, digits) and
Cyrillic ranges that the normalized registry text uses. -/
def isAlnumCh (c : Char) : Bool :=
  decide ((97 ≤ c.toNat ∧ c.toNat ≤ 122) ∨ (65 ≤ c.toNat ∧ c.toNat ≤ 90) ∨
    (48 ≤ c.toNat ∧ c.toNat ≤ 57) ∨ (1024 ≤ c.toNat ∧ c.toNat ≤ 1279))

/-- `COMMON_RUSSIAN_WORDS` (src/jur_checker.py:27), transcribed verbatim;
the Python value is a `set` literal, modelled as the list of its
elements (duplicates in the literal are harmless for membership). -/
def COMMON_RUSSIAN_WORDS : List Str :=
  ([ "и", "в", "не", "на", "с", "что", "а", "как", "по", "это",
    "он", "она", "они", "к", "но", "за", "у", "от", "о", "из",
    "для", "же", "до", "так", "мы", "вы", "я", "все", "был", "была",
    "было", "были", "быть", "если", "есть", "когда", "где", "кто", "или",
    "этот", "этого", "этой", "этих", "может", "можно", "нет", "да", "только",
    "такой", "такая", "такое", "свой", "своя", "свое", "год", "день", "время",
    "два", "три", "раз", "один", "одна", "одно", "много", "мало", "более",
    "самый", "очень", "еще", "уже", "там", "здесь", "сейчас", "тогда", "потом",
    "тут", "вот", "после", "через", "без", "под", "над", "между", "при",
    "про", "нас", "вас", "них", "ним", "том", "тем", "которые", "который",
    "стать", "сказать", "говорить", "видеть", "знать", "сделать", "хотеть",
    "со", "во", "ко", "об", "со", "то", "бы", "ли", "ни", "же",
    "ст", "ук", "рф", "км", "дон", "тр", "вс", "гг", "мид",
    "группа", "центр", "фонд", "союз", "комитет", "движение", "партия",
    "издание", "агентство", "первый", "второй", "развитие", "поддержка",
    "альянс", "команда", "проект", "отдел", "факт", "выбор", "инициатива",
    "весь", "вся", "все", "ноги", "вот", "максим", "сергей", "александр",
    "николай", "союзники", "исключение", "великобритания", "настоящее",
    "время", "мемориал", "сейчас", "объединение",
    "россия", "россии", "россию", "россией", "вместе", "процесс", "другой",
    "наши", "друг", "собеседник",
    "голосов", "городской", "научный", "выборы", "акцент", "граждане",
    "андрей", "михаил", "антон", "олег", "татьяна", "роман", "илья",
    "виктор", "александра", "роберт", "дарья", "анастасия", "евгений",
    "дмитрий", "алексей", "иван", "петр", "павел", "юрий", "владимир",
    "игорь", "сергей", "николай", "максим",
    "петрович", "александрович", "иванович", "сергеевич", "владимирович",
    "николаевич", "михайлович", "алексеевич", "дмитриевич", "андреевич",
    "евгеньевич", "олегович", "павлович", "юрьевич", "борисович",
    "анатольевич", "валерьевич", "викторович", "геннадьевич", "григорьевич",
    "петровна", "александровна", "ивановна", "сергеевна", "владимировна",
    "николаевна", "михайловна", "алексеевна", "дмитриевна", "андреевна",
    "свободная", "свободный", "открытый", "открытая", "новый", "новая",
    "старый", "старая", "белый", "белая", "черный", "черная", "красный",
    "красная", "синий", "синяя", "зеленый", "зеленая",
    "некоммерческая организация", "общественное объединение",
    "межрегиональное общественное объединение",
    "автономная некоммерческая организация",
    "общественная организация", "религиозная организация",
    "ссср", "сша", "фрг", "кнр", "рсфср", "усср", "бсср",
    "аль", "дон", "бен", "эль", "дер", "ван", "фон" ] : List String).map str

/-- Patronymic endings tested by `is_dangerous_alias` (criterion 4). -/
def DANGEROUS_ENDINGS : List Str :=
  ([ "ович", "евич", "ич", "овна", "евна", "ична", "инична" ] : List String).map str

/-- `is_dangerous_alias` (src/jur_checker.py:90): aliases too likely to
produce false positives. -/
def is_dangerous_alias (a : Str) : Bool :=
  let alias_lower := stripWS (lowerStr a)
  if alias_lower.length < 3 then true
  else if COMMON_RUSSIAN_WORDS.contains alias_lower then true
  else if (let digits := alias_lower.filter (fun c => !(c == '.' || c == ' '));
      !digits.isEmpty && digits.all isDigitCh) then true
  else if !(alias_lower.contains ' ') &&
      DANGEROUS_ENDINGS.any (fun e => e.isSuffixOf alias_lower) &&
      decide (alias_lower.length ≤ 10) then true
  else if decide (35 < alias_lower.length) then true
  else false

/-- `ORG_KEYWORDS` in `AliasExpander.is_person_name` (src/jur_checker.py:213). -/
def ORG_KEYWORDS : List Str :=
  ([ "фонд", "организация", "общество", "проект", "издание",
    "движение", "союз", "партнерство", "центр", "институт",
    "комитет", "ано", "оао", "ооо", "нко", "автономная",
    "некоммерческая", "благотворительный", "региональн",
    "межрегиональн", "общероссийск", "объединение",
    "группа", "компания", "корпорация", "ассоциация",
    "террористическ", "экстремистск", "сообщество" ] : List String).map str

/-- `PATRONYMIC_ENDINGS` in `is_person_name` (src/jur_checker.py:227). -/
def PATRONYMIC_ENDINGS : List Str :=
  ([ "ович", "евич", "овна", "евна", "ичем", "ична" ] : List String).map str

/-- `common_org_words` in `is_person_name` (src/jur_checker.py:240). -/
def COMMON_ORG_WORDS : List Str :=
  ([ "государство", "движение", "сообщество", "коммунистическ" ] : List String).map str

/-- `AliasExpander.is_person_name` (src/jur_checker.py:199). -/
def is_person_name (name : Str) : Bool :=
  let name_lower := lowerStr name
  let words := pySplit name
  if ORG_KEYWORDS.any (fun kw => isSub kw name_lower) then false
  else if words.any (fun w => decide (5 < w.length) &&
      PATRONYMIC_ENDINGS.any (fun e => e.isSuffixOf (lowerStr w))) then true
  else if words.length == 2 then
    if COMMON_ORG_WORDS.any (fun ow => isSub ow name_lower) then false
    else if !(name.contains '.') && !(name.any isDigitCh) then true
    else false
  else if words.length == 3 then true
  else false

/-- `" ".join(parts)`. -/
def joinSpace (parts : List Str) : Str := List.intercalate [' '] parts

/-- `AliasExpander.parse_person_name` (src/jur_checker.py:259).
With fewer than one part (empty name) CPython raises IndexError in the
4+ branch; that case is unreachable in the pipeline and the model
returns a junk total default there. -/
def parse_person_name (name : Str) : Str × Option Str × Str :=
  let parts := pySplit (stripWS name)
  if parts.length == 1 then (parts.headD [], none, parts.headD [])
  else if parts.length == 2 then (parts.headD [], none, parts.getLastD [])
  else if parts.length == 3 then
    (parts.headD [], some (parts.getD 1 []), parts.getLastD [])
  else
    (joinSpace (parts.take (parts.length - 2)),
      some (parts.getD (parts.length - 2) []), parts.getLastD [])

/-- `AliasExpander.expand_name_orders` (src/jur_checker.py:284). -/
def expand_name_orders (first : Str) (patronymic : Option Str) (last : Str) :
    List Str :=
  match patronymic with
  | some p =>
    [first ++ ' ' :: p ++ ' ' :: last, first ++ ' ' :: last, last ++ ' ' :: first]
  | none =>
    [first ++ ' ' :: last, last ++ ' ' :: first]

/-- `AliasExpander.expand_initials` (src/jur_checker.py:316);
`first.take 1` models `first[0] if first else ""`. -/
def expand_initials (first : Str) (patronymic : Option Str) (last : Str) :
    List Str :=
  let first_initial := first.take 1
  let base := [first_initial ++ '.' :: ' ' :: last,
    last ++ ' ' :: first_initial ++ ['.']]
  match patronymic with
  | some p =>
    let patronymic_initial := p.take 1
    base ++ [first_initial ++ '.' :: patronymic_initial ++ '.' :: ' ' :: last,
      last ++ ' ' :: first_initial ++ '.' :: patronymic_initial ++ ['.']]
  | none => base

/-- `AliasExpander._build_diminutive_map` (src/jur_checker.py:169). -/
def diminutive_map : List (Str × List Str) :=
  [ (str "александр", ([ "саша", "сашка", "шура", "саня" ] : List String).map str),
    (str "алексей", ([ "лёша", "леша", "алекс", "лёха", "алёша" ] : List String).map str),
    (str "владимир", ([ "вова", "вовка", "володя" ] : List String).map str),
    (str "дмитрий", ([ "дима", "митя", "димка" ] : List String).map str),
    (str "сергей", ([ "серёжа", "сережа", "серёга" ] : List String).map str),
    (str "андрей", ([ "андрюша", "дрюша" ] : List String).map str),
    (str "евгений", ([ "женя", "женька" ] : List String).map str),
    (str "михаил", ([ "миша", "мишка" ] : List String).map str),
    (str "николай", ([ "коля", "колька", "николаша" ] : List String).map str),
    (str "иван", ([ "ваня", "ванька", "ванечка" ] : List String).map str),
    (str "юрий", ([ "юра", "юрка" ] : List String).map str),
    (str "анна", ([ "аня", "анька", "нюра" ] : List String).map str),
    (str "мария", ([ "маша", "машка", "маруся" ] : List String).map str),
    (str "елена", ([ "лена", "ленка", "алёна" ] : List String).map str),
    (str "ольга", ([ "оля", "олька" ] : List String).map str),
    (str "татьяна", ([ "таня", "танька", "танюша" ] : List String).map str),
    (str "наталья", ([ "наташа", "наташка" ] : List String).map str),
    (str "ирина", ([ "ира", "ирка" ] : List String).map str),
    (str "екатерина", ([ "катя", "катюша", "катька" ] : List String).map str) ]

/-- `AliasExpander.expand_diminutives` (src/jur_checker.py:350). -/
def expand_diminutives (first_name : Str) : List Str :=
  (diminutive_map.lookup (lowerStr first_name)).getD []

/-- One inflected form as produced by the external `pymorphy3` analyzer:
the surface word plus its case/gender/number grammemes. -/
structure MorphForm where
  word : Str
  caseTag : Option Str
  genderTag : Option Str
  numberTag : Option Str

/-- One parse (`morph_analyzer.parse(w)[i]`): confidence score, lexeme
(`.lexeme`) and inflection (`.inflect`).  `pymorphy3` ships a large
external dictionary, so its behavior is a parameter of the model. -/
structure ParsedWord where
  score : Rat
  lexeme : List MorphForm
  inflect : List Str → Option MorphForm

/-- The external `pymorphy3.MorphAnalyzer`. -/
structure MorphAnalyzer where
  parse : Str → List ParsedWord

/-- The `AliasExpander` object: the alias cap plus its two external
dependencies (`pymorphy3` analyzer and the `transliterate` library,
the latter returning `none` when `translit` raises). -/
structure AliasExpander where
  max_aliases : Nat := 100
  morph : MorphAnalyzer
  translitRu : Str → Option Str

/-- `list(set(xs))`.  CPython iterates a `set` of strings in an
unspecified (hash-dependent) order; the model fixes the
first-occurrence order. -/
def pySet [DecidableEq α] : List α → List α :=
  go []
where
  go [DecidableEq α] (seen : List α) : List α → List α
  | [] => []
  | x :: rest => if x ∈ seen then go seen rest else x :: go (x :: seen) rest

/-- Python `s.replace(pat, repl)`: left-to-right, non-overlapping; the
`pat ≠ []` guard is only for termination (all call sites pass literals). -/
def replaceAll (pat repl : Str) (l : Str) : Str :=
  match l with
  | [] => []
  | c :: rest =>
    if pat.isPrefixOf (c :: rest) && !pat.isEmpty then
      repl ++ replaceAll pat repl ((c :: rest).drop pat.length)
    else c :: replaceAll pat repl rest
termination_by l.length
decreasing_by
  · rename_i h
    simp only [Bool.and_eq_true, Bool.not_eq_true', List.isEmpty_iff,
      List.isEmpty_eq_false] at h
    have hlen : 0 < pat.length := List.length_pos.mpr h.2
    simp only [List.length_drop, List.length_cons]
    omega
  · simp only [List.length_cons]; omega

/-- `AliasExpander.expand_morphological_forms` (src/jur_checker.py:410). -/
def expand_morphological_forms (A : MorphAnalyzer) (surname : Str) : List Str :=
  match A.parse surname with
  | [] => []
  | word :: _ =>
    if word.score < (1 : Rat)/10 then []
    else if !(surname.any isCyr) then []
    else pySet (word.lexeme.map (fun form => lowerStr form.word))

/-- `AliasExpander.expand_transliterations` (src/jur_checker.py:363). -/
def expand_transliterations (translitRu : Str → Option Str)
    (variants : List Str) : List Str :=
  variants.flatMap (fun variant =>
    if !(variant.any isCyr) then []
    else
      match translitRu variant with
      | none => []
      | some t0 =>
        let t1 := replaceAll [Char.ofNat 39] [] t0
        let t2 := lowerStr t1
        let t3 := replaceAll (str "yj") (str "y") t2
        let t4 := replaceAll (str "ij") (str "iy") t3
        let t5 := replaceAll (str "sej") (str "sey") t4
        let t6 := replaceAll (str "ju") (str "yu") t5
        [t6])

/-- The inner loop of `expand_phrase_morphology`: parse every word,
returning `none` as soon as one word has no parse. -/
def allParsedHeads (A : MorphAnalyzer) : List Str → Option (List ParsedWord)
  | [] => some []
  | w :: rest =>
    match (A.parse w).head? with
    | none => none
    | some p => (allParsedHeads A rest).map (fun ps => p :: ps)

/-- One agreed variant in `expand_phrase_morphology`: inflect every
dependent word to the head form's case/gender/number (the Python
grammeme `set` minus `None` is modelled as the corresponding list). -/
def phraseVariant (words : List Str) (parsed_words : List ParsedWord)
    (main_form : MorphForm) : Str :=
  let grammemes :=
    [main_form.caseTag, main_form.genderTag, main_form.numberTag].filterMap id
  let inflected_words := (parsed_words.dropLast.zip words).map (fun pw =>
    match pw.1.inflect grammemes with
    | some inflected => lowerStr inflected.word
    | none => lowerStr pw.2)
  joinSpace (inflected_words ++ [lowerStr main_form.word])

/-- `AliasExpander.expand_phrase_morphology` (src/jur_checker.py:541). -/
def expand_phrase_morphology (A : MorphAnalyzer) (phrase : Str)
    (max_words : Nat := 3) : List Str :=
  let words0 := pySplit phrase
  if words0.length == 0 then []
  else
    let words := words0.drop (words0.length - max_words)
    if words.length == 1 then expand_morphological_forms A (words.headD [])
    else
      match allParsedHeads A words with
      | none => []
      | some parsed_words =>
        match parsed_words.getLast? with
        | none => []
        | some main_word =>
          pySet (main_word.lexeme.map (phraseVariant words parsed_words))

/-- `AliasExpander.prioritize_aliases` (src/jur_checker.py:499). -/
def prioritize_aliases (E : AliasExpander) (aliases : List Str) : List Str :=
  if aliases.length ≤ E.max_aliases then aliases
  else aliases.take E.max_aliases

/-- `AliasExpander._expand_person_name` (src/jur_checker.py:725). -/
def expand_person_name (E : AliasExpander) (entity_name : Str) : List Str :=
  let parsed := parse_person_name entity_name
  let first := parsed.1
  let patronymic := parsed.2.1
  let last := parsed.2.2
  let name_order_variants := expand_name_orders first patronymic last
  let v2 := name_order_variants ++ expand_initials first patronymic last
  let morpho := name_order_variants.flatMap (fun nv =>
    if decide (2 ≤ (pySplit nv).length) then expand_phrase_morphology E.morph nv 3
    else [])
  let v3 := v2 ++ morpho
  let dims := expand_diminutives first
  let dimAliases := dims.flatMap (fun dim =>
    (match patronymic with
     | some pat => [dim ++ ' ' :: pat ++ ' ' :: last]
     | none => []) ++ [dim ++ ' ' :: last])
  let v4 := v3 ++ dimAliases
  let all_variants := v4 ++ expand_transliterations E.translitRu v4
  let normalized_variants := all_variants.map normalize_alias
  let filtered_variants := normalized_variants.filter (fun v =>
    v.contains '.' || decide (2 ≤ (pySplit v).length))
  let unique_variants := pySet filtered_variants
  prioritize_aliases E unique_variants

/-- `AliasExpander._expand_terrorist` (src/jur_checker.py:614). -/
def expand_terrorist (E : AliasExpander) (entity_name : Str) : List Str :=
  let normalized := normalize_alias entity_name
  let words := pySplit entity_name
  let morphoPart : List Str :=
    if decide (2 ≤ words.length) then
      let key_phrase := joinSpace (words.drop (words.length - 2))
      let morpho_forms := expand_phrase_morphology E.morph key_phrase 2
      let pre : Str :=
        if decide (2 < words.length) then joinSpace (words.take (words.length - 2))
        else []
      morpho_forms.flatMap (fun form =>
        (if !pre.isEmpty then [normalize_alias (pre ++ ' ' :: form)] else []) ++
          [normalize_alias form])
    else
      match words with
      | [w] => (expand_morphological_forms E.morph w).map normalize_alias
      | _ => []
  let ab1 : List Str :=
    if isSub (str "исламское государство") normalized || isSub (str "игил") normalized then
      ([ "игил", "иг", "isis", "isil", "даиш",
         "игила", "игилу", "игилом", "игиле" ] : List String).map str
    else []
  let ab2 : List Str :=
    if isSub (str "аль-каида") normalized || isSub (str "аль каида") normalized then
      ([ "аль-каида", "аль каида", "al-qaeda", "al qaeda",
         "аль-каиды", "аль-каиде", "аль-каидой", "аль-каиде" ] : List String).map str
    else []
  let ab3 : List Str :=
    if isSub (str "талибан") normalized then
      ([ "талибан", "taliban" ] : List String).map str
    else []
  pySet (normalized :: morphoPart ++ ab1 ++ ab2 ++ ab3)

/-- `AliasExpander._expand_extremist` (src/jur_checker.py:656). -/
def expand_extremist (E : AliasExpander) (entity_name : Str) : List Str :=
  let normalized := normalize_alias entity_name
  let words := pySplit entity_name
  let morphoPart : List Str :=
    if decide (2 ≤ words.length) then
      let key_phrase := joinSpace (words.drop (words.length - 2))
      let morpho_forms := expand_phrase_morphology E.morph key_phrase 2
      let pre : Str :=
        if decide (2 < words.length) then joinSpace (words.take (words.length - 2))
        else []
      morpho_forms.flatMap (fun form =>
        (if !pre.isEmpty then [normalize_alias (pre ++ ' ' :: form)] else []) ++
          [normalize_alias form])
    else
      match words with
      | [w] => (expand_morphological_forms E.morph w).map normalize_alias
      | _ => []
  pySet (normalized :: morphoPart)

/-- The leftmost match of `re.search(r'\(([^)]+)\)', name)`:
an opening parenthesis followed by a nonempty run of non-`)` characters
and a closing parenthesis. -/
def parenInner : Str → Option Str
  | [] => none
  | c :: rest =>
    if c = '(' then
      let captured := rest.takeWhile (fun d => !(d == ')'))
      if !captured.isEmpty && ((rest.drop captured.length).head? == some ')') then
        some captured
      else parenInner rest
    else parenInner rest

/-- `AliasExpander._expand_undesirable` (src/jur_checker.py:692). -/
def expand_undesirable (entity_name : Str) : List Str :=
  let normalized := normalize_alias entity_name
  let extra : List Str :=
    if entity_name.contains '(' && entity_name.contains ')' then
      match parenInner entity_name with
      | some alternate => [normalize_alias alternate]
      | none => []
    else []
  pySet (normalized :: extra)

/-- `AliasExpander._expand_organization_name` (src/jur_checker.py:790). -/
def expand_organization_name (entity_name : Str) : List Str :=
  [normalize_alias entity_name]

/-- `AliasExpander.expand_all` (src/jur_checker.py:516): person names
get full expansion regardless of type, otherwise dispatch on the type
substring. -/
def expand_all (E : AliasExpander) (entity_name entity_type : Str) : List Str :=
  if is_person_name entity_name then expand_person_name E entity_name
  else if isSub (str "террорист") (lowerStr entity_type) then
    expand_terrorist E entity_name
  else if isSub (str "экстремист") (lowerStr entity_type) then
    expand_extremist E entity_name
  else if isSub (str "нежелательн") (lowerStr entity_type) then
    expand_undesirable entity_name
  else expand_organization_name entity_name

/-- One registry row (`row.to_dict()` in `_load_and_prepare_data`).
Only the keys the core reads are modelled; a missing CSV column is
`none`.  `aliasesParsed` is `some xs` exactly when the `aliases` cell is
present, truthy, and `json.loads` yields a sequence of strings `xs`;
every other case (absent, falsy, parse error, non-iterable value — the
code falls back to generation on the raised exception) is `none`. -/
structure Row where
  id : Option Str := none
  entity_name : Option Str := none
  name : Option Str := none
  type : Option Str := none
  entity_type : Option Str := none
  aliasesParsed : Option (List Str) := none
deriving DecidableEq

/-- `str(entity_data.get('entity_name', entity_data.get('name', ''))).strip()`. -/
def rowEntityName (r : Row) : Str :=
  stripWS (r.entity_name.getD (r.name.getD []))

/-- `str(entity_data.get('type', 'иноагенты')).strip()`. -/
def rowEntityType (r : Row) : Str :=
  stripWS (r.type.getD (str "иноагенты"))

/-- The per-row alias computation of `JurChecker._load_and_prepare_data`
(src/jur_checker.py:883): pre-generated aliases are normalized and run
through `is_dangerous_alias`; otherwise aliases are generated by
`expand_all` (which applies no such filter). -/
def rowAliases (E : AliasExpander) (r : Row) : List Str :=
  match r.aliasesParsed with
  | some aliases_raw =>
    let aliases_normalized := (aliases_raw.filter (fun a => !a.isEmpty)).map normalize_alias
    aliases_normalized.filter (fun a => !is_dangerous_alias a)
  | none => expand_all E (rowEntityName r) (rowEntityType r)

/-- The sequence of `automaton.add_word(alias, (alias, entity_data))`
calls issued by the build loop, in order (rows with an empty name are
skipped before any alias work). -/
def buildInserts (E : AliasExpander) (rows : List Row) : List (Str × (Str × Row)) :=
  rows.flatMap (fun row =>
    if rowEntityName row = [] then []
    else (rowAliases E row).map (fun a => (a, (a, row))))

/-- `pyahocorasick`'s `add_word`: set `k` to `v`, overwriting the value
of an existing key. -/
def add_word (m : List (Str × β)) (k : Str) (v : β) : List (Str × β) :=
  if m.any (fun p => p.1 == k) then
    m.map (fun p => if p.1 == k then (k, v) else p)
  else m ++ [(k, v)]

/-- The automaton key→payload map after a sequence of insertions. -/
def buildAutomaton (inserts : List (Str × β)) : List (Str × β) :=
  inserts.foldl (fun m p => add_word m p.1 p.2) []

/-- `kw` occurs in `n` as the substring ending at index `endIdx`. -/
def occursEndingAt (kw n : Str) (endIdx : Nat) : Bool :=
  !kw.isEmpty && decide (kw.length ≤ endIdx + 1) && decide (endIdx < n.length) &&
    ((n.take (endIdx + 1)).drop (endIdx + 1 - kw.length) == kw)

/-- `automaton.iter(n)`: every `(end_index, payload)` such that the key
occurs ending there.  (pyahocorasick reports every occurrence of every
key; the claims do not depend on the report order.) -/
def automaton_iter (m : List (Str × β)) (n : Str) : List (Nat × β) :=
  (List.range n.length).flatMap (fun e =>
    m.filterMap (fun p => if occursEndingAt p.1 n e then some (e, p.2) else none))

/-- `entity_data.get('id', entity_data.get('entity_name', 'unknown'))`. -/
def entityIdOf (entity_data : Row) : Str :=
  entity_data.id.getD (entity_data.entity_name.getD (str "unknown"))

/-- Left part of the word-boundary check (src/jur_checker.py:1157):
start of string, or a non-alphanumeric character just before `start`. -/
def isLeftBoundary (n : Str) (start_index : Nat) : Bool :=
  decide (start_index = 0) || !isAlnumCh (n.getD (start_index - 1) ' ')

/-- Right part of the word-boundary check (src/jur_checker.py:1159):
end of string, or a non-alphanumeric character just after `end_index`. -/
def isRightBoundary (n : Str) (end_index : Nat) : Bool :=
  decide (end_index + 1 = n.length) || !isAlnumCh (n.getD (end_index + 1) ' ')

/-- The full word-boundary test on a hit `(end_index, kw)`. -/
def boundaryOk (n : Str) (end_index : Nat) (kw : Str) : Bool :=
  isLeftBoundary n (end_index + 1 - kw.length) && isRightBoundary n end_index

/-- The main loop of `find_raw_candidates` (src/jur_checker.py:1149):
skip an already-processed entity, then check the word boundary, and
only on acceptance record the entity id. -/
def scanLoop (n : Str) : List (Nat × Str × Row) → List Str → List (Nat × Str × Row)
  | [], _ => []
  | (e, kw, ent) :: rest, processed_ids =>
    if entityIdOf ent ∈ processed_ids then scanLoop n rest processed_ids
    else if boundaryOk n e kw then
      (e, kw, ent) :: scanLoop n rest (entityIdOf ent :: processed_ids)
    else scanLoop n rest processed_ids

/-- One emitted candidate (`candidate_info`, src/jur_checker.py:1171). -/
structure Candidate where
  entity_id : Str
  entity_name : Str
  entity_type : Str
  found_alias : Str
  context : Str
deriving DecidableEq

/-- Python slice `l[a:b]` (for `0 ≤ a ≤ b`). -/
def pySlice (l : Str) (a b : Nat) : Str := (l.take b).drop a

/-- Build `candidate_info` for an accepted finding: context is cut from
the original text, 150 before the start and 150 after the end. -/
def mkCandidate (text : Str) (f : Nat × Str × Row) : Candidate :=
  let start_index := f.1 + 1 - f.2.1.length
  { entity_id := entityIdOf f.2.2
    entity_name := (f.2.2).entity_name.getD ((f.2.2).name.getD (str "unknown"))
    entity_type := (f.2.2).entity_type.getD ((f.2.2).type.getD (str "unknown"))
    found_alias := f.2.1
    context := pySlice text (start_index - 150) (min text.length (f.1 + 151)) }

/-- `JurChecker.find_raw_candidates` (src/jur_checker.py:1129), with the
automaton's finding list (`list(self.automaton.iter(normalized_text))`)
passed explicitly. -/
def find_raw_candidates (text : Str) (findings : List (Nat × Str × Row)) :
    List Candidate :=
  (scanLoop (normalize_text text) findings []).map (mkCandidate text)

/-- A finding the automaton can actually produce: a nonempty key that
genuinely occurs in the normalized text ending at the given index. -/
def ValidFinding (n : Str) (f : Nat × Str × Row) : Prop :=
  occursEndingAt f.2.1 n f.1 = true

instance decidableValidFinding (n : Str) (f : Nat × Str × Row) :
    Decidable (ValidFinding n f) :=
  decidable_of_iff (occursEndingAt f.2.1 n f.1 = true) Iff.rfl

/-- One JSON value of a telemetry entry. -/
inductive JVal where
  | s (v : Str)
  | null
deriving DecidableEq

/-- The telemetry JSON object written per candidate
(src/jur_checker.py:1188): note `datetime.now().isoformat()` is the
LOCAL wall-clock time, to which the code appends a literal `"Z"`. -/
def telemetry_entry (localNowIso : Str) (c : Candidate) : List (Str × JVal) :=
  [(str "timestamp", JVal.s (localNowIso ++ str "Z")),
   (str "alias", JVal.s c.found_alias),
   (str "entity_id", JVal.s c.entity_id),
   (str "entity_name", JVal.s c.entity_name),
   (str "entity_type", JVal.s c.entity_type),
   (str "context", JVal.s (c.context.take 300)),
   (str "request_id", JVal.null)]

/-- `JurChecker._get_telemetry_log_path` (src/jur_checker.py:1076). -/
def telemetry_log_path (today : Str) : Str :=
  str ".logs/matches-" ++ today ++ str ".jsonl"

/-- The lines appended to the telemetry log by one scan: one JSON
object per emitted candidate, only when logging is enabled. -/
def telemetry_lines (enable_match_logging : Bool) (localNowIso : Str)
    (text : Str) (findings : List (Nat × Str × Row)) : List (List (Str × JVal)) :=
  if enable_match_logging then
    (find_raw_candidates text findings).map (telemetry_entry localNowIso)
  else []

/-- A concrete oracle assignment used to instantiate witnesses: the
analyzer recognizes nothing, transliteration always raises.  The code
paths exercised by the witnesses do not consult the oracles' output
beyond these calls. -/
def noMorph : MorphAnalyzer := ⟨fun _ => []⟩

/-- The expander `JurChecker` constructs: `AliasExpander(max_aliases=100)`,
with the trivial oracles of `noMorph`. -/
def EW : AliasExpander := { max_aliases := 100, morph := noMorph, translitRu := fun _ => none }

/-- A terrorist-registry row without a precomputed alias column. -/
def c1Row : Row :=
  { id := some (str "t1"), entity_name := some (str "Исламское государство"),
    type := some (str "террористы") }

/-- 101 distinct three-character aliases, none of them dangerous. -/
def c2Aliases : List Str :=
  (List.range 101).map (fun i => ['x', 'y', Char.ofNat (1106 + i)])

/-- A row whose precomputed alias column carries 101 safe aliases. -/
def c2Row : Row :=
  { id := some (str "e1"), entity_name := some (str "Test Entity"),
    aliasesParsed := some c2Aliases }

/-- A minimal registry row used in the scanner witnesses. -/
def rowW : Row := { id := some (str "w1"), entity_name := some (str "W Entity") }

/-- A registry row used in the telemetry evaluation. -/
def row9 : Row :=
  { id := some (str "abc-1"), entity_name := some (str "Test Entity"),
    type := some (str "иноагенты") }

/-! ## Theorems -/

/-! ## Character-level lemmas -/

theorem toNat_ofNat {n : Nat} (h : n < 55296) : (Char.ofNat n).toNat = n := by
  simp [Char.ofNat, Char.toNat, Nat.isValidChar, h, Char.ofNatAux,
    UInt32.toNat, UInt32.ofNatCore]

theorem char_eq_of_toNat {a b : Char} (h : a.toNat = b.toNat) : a = b :=
  Char.ext (UInt32.ext h)

theorem isWS_iff (c : Char) :
    isWS c = true ↔ (c.toNat = 32 ∨ c.toNat = 9 ∨ c.toNat = 10 ∨
      c.toNat = 13 ∨ c.toNat = 11 ∨ c.toNat = 12) := by
  constructor
  · intro h
    simp only [isWS, Bool.or_eq_true, beq_iff_eq] at h
    rcases h with ((((h | h) | h) | h) | h) | h <;> subst h <;> decide
  · intro h
    have : c = ' ' ∨ c = '\t' ∨ c = '\n' ∨ c = '\x0d' ∨ c = '\x0b' ∨ c = '\x0c' := by
      rcases h with h | h | h | h | h | h
      · exact Or.inl (char_eq_of_toNat (by simpa using h))
      · exact Or.inr (Or.inl (char_eq_of_toNat (by simpa using h)))
      · exact Or.inr (Or.inr (Or.inl (char_eq_of_toNat (by simpa using h))))
      · exact Or.inr (Or.inr (Or.inr (Or.inl (char_eq_of_toNat (by simpa using h)))))
      · exact Or.inr (Or.inr (Or.inr (Or.inr (Or.inl (char_eq_of_toNat (by simpa using h))))))
      · exact Or.inr (Or.inr (Or.inr (Or.inr (Or.inr (char_eq_of_toNat (by simpa using h))))))
    rcases this with h | h | h | h | h | h <;> subst h <;> decide

theorem isWS_false_of (c : Char)
    (h : ¬(c.toNat = 32 ∨ c.toNat = 9 ∨ c.toNat = 10 ∨
      c.toNat = 13 ∨ c.toNat = 11 ∨ c.toNat = 12)) : isWS c = false := by
  cases hb : isWS c
  · rfl
  · exact absurd ((isWS_iff c).mp hb) h

theorem isWS_lowerChar (c : Char) : isWS (lowerChar c) = isWS c := by
  by_cases h1 : 65 ≤ c.toNat ∧ c.toNat ≤ 90
  · have h32 : (Char.ofNat (c.toNat + 32)).toNat = c.toNat + 32 := toNat_ofNat (by omega)
    simp only [lowerChar, if_pos h1]
    rw [isWS_false_of _ (by rw [h32]; omega), isWS_false_of c (by omega)]
  · by_cases h2 : 1040 ≤ c.toNat ∧ c.toNat ≤ 1071
    · have h32 : (Char.ofNat (c.toNat + 32)).toNat = c.toNat + 32 := toNat_ofNat (by omega)
      simp only [lowerChar, if_neg h1, if_pos h2]
      rw [isWS_false_of _ (by rw [h32]; omega), isWS_false_of c (by omega)]
    · by_cases h3 : 1024 ≤ c.toNat ∧ c.toNat ≤ 1039
      · have h80 : (Char.ofNat (c.toNat + 80)).toNat = c.toNat + 80 := toNat_ofNat (by omega)
        simp only [lowerChar, if_neg h1, if_neg h2, if_pos h3]
        rw [isWS_false_of _ (by rw [h80]; omega), isWS_false_of c (by omega)]
      · simp only [lowerChar, if_neg h1, if_neg h2, if_neg h3]

theorem isWS_yoChar (c : Char) : isWS (yoChar c) = isWS c := by
  unfold yoChar
  split
  · next h => subst h; decide
  · rfl

theorem lowerChar_idem (c : Char) : lowerChar (lowerChar c) = lowerChar c := by
  by_cases h1 : 65 ≤ c.toNat ∧ c.toNat ≤ 90
  · have h32 : (Char.ofNat (c.toNat + 32)).toNat = c.toNat + 32 := toNat_ofNat (by omega)
    simp only [lowerChar, if_pos h1, h32]
    rw [if_neg (by omega), if_neg (by omega), if_neg (by omega)]
  · by_cases h2 : 1040 ≤ c.toNat ∧ c.toNat ≤ 1071
    · have h32 : (Char.ofNat (c.toNat + 32)).toNat = c.toNat + 32 := toNat_ofNat (by omega)
      simp only [lowerChar, if_neg h1, if_pos h2, h32]
      rw [if_neg (by omega), if_neg (by omega), if_neg (by omega)]
    · by_cases h3 : 1024 ≤ c.toNat ∧ c.toNat ≤ 1039
      · have h80 : (Char.ofNat (c.toNat + 80)).toNat = c.toNat + 80 := toNat_ofNat (by omega)
        simp only [lowerChar, if_neg h1, if_neg h2, if_pos h3, h80]
        rw [if_neg (by omega), if_neg (by omega), if_neg (by omega)]
      · simp only [lowerChar, if_neg h1, if_neg h2, if_neg h3]

theorem yoChar_idem (c : Char) : yoChar (yoChar c) = yoChar c := by
  unfold yoChar
  split
  · next h => subst h; decide
  · rfl

theorem lowerChar_yoChar_lowerChar (c : Char) :
    lowerChar (yoChar (lowerChar c)) = yoChar (lowerChar c) := by
  have hl := lowerChar_idem c
  unfold yoChar
  split
  · next h => decide
  · exact hl

/-! ## Whitespace collapsing and stripping -/

theorem noTwoWS_iff : ∀ (l : Str),
    noTwoWS l = true ↔ l.Chain' (fun a b => ¬(isWS a = true ∧ isWS b = true))
  | [] => by simp [noTwoWS]
  | [c] => by simp [noTwoWS]
  | c1 :: c2 :: rest => by
    rw [List.chain'_cons, ← noTwoWS_iff (c2 :: rest)]
    show ((!(isWS c1 && isWS c2)) && noTwoWS (c2 :: rest)) = true ↔ _
    rw [Bool.and_eq_true, Bool.not_eq_true']
    constructor
    · rintro ⟨h1, h2⟩
      refine ⟨?_, h2⟩
      rintro ⟨x, y⟩
      rw [x, y] at h1
      exact absurd h1 (by simp)
    · rintro ⟨h1, h2⟩
      refine ⟨?_, h2⟩
      by_cases hx : isWS c1 = true
      · by_cases hy : isWS c2 = true
        · exact absurd ⟨hx, hy⟩ h1
        · rw [hx, Bool.eq_false_iff.mpr hy]; rfl
      · rw [Bool.eq_false_iff.mpr hx]; rfl

theorem mem_collapseWS {c : Char} : ∀ {l : Str}, c ∈ collapseWS l → c = ' ' ∨ c ∈ l
  | [], h => absurd h (by simp [collapseWS])
  | [d], h => by
    unfold collapseWS at h
    split at h
    · simp at h; exact Or.inl h
    · exact Or.inr h
  | c1 :: c2 :: rest, h => by
    unfold collapseWS at h
    split at h
    · rcases mem_collapseWS h with h' | h'
      · exact Or.inl h'
      · exact Or.inr (List.mem_cons_of_mem _ h')
    · rcases List.mem_cons.mp h with h' | h'
      · subst h'
        split
        · exact Or.inl rfl
        · exact Or.inr (List.mem_cons_self _ _)
      · rcases mem_collapseWS h' with h'' | h''
        · exact Or.inl h''
        · exact Or.inr (List.mem_cons_of_mem _ h'')

theorem head?_collapseWS (c : Char) : ∀ (rest : Str),
    (collapseWS (c :: rest)).head? = some (if isWS c then ' ' else c)
  | [] => by unfold collapseWS; split <;> rfl
  | c2 :: rest => by
    unfold collapseWS
    split
    · next hb =>
      rw [head?_collapseWS c2 rest]
      have h1 : isWS c = true := (Bool.and_eq_true _ _ |>.mp hb).1
      have h2 : isWS c2 = true := (Bool.and_eq_true _ _ |>.mp hb).2
      rw [if_pos h1, if_pos h2]
    · rfl

theorem collapseWS_collapsed : ∀ (l : Str), Collapsed (collapseWS l)
  | [] => ⟨by simp [collapseWS], by simp [collapseWS, noTwoWS]⟩
  | [c] => by
    constructor
    · intro d hd hws
      unfold collapseWS at hd
      split at hd
      · simpa using hd
      · next hc =>
        simp at hd
        subst hd
        simp [hws] at hc
    · unfold collapseWS
      split <;> simp [noTwoWS]
  | c1 :: c2 :: rest => by
    have ih := collapseWS_collapsed (c2 :: rest)
    unfold collapseWS
    split
    · exact ih
    · next hb =>
      constructor
      · intro d hd hws
        rcases List.mem_cons.mp hd with h' | h'
        · subst h'
          split at hws
          · split
            · rfl
            · next hc => simp_all
          · next hc =>
            split
            · next hc2 => exact absurd hc2 (by simp [hws] at hc ⊢)
            · exact absurd hws (by simp_all)
        · exact ih.1 d h' hws
      · rw [noTwoWS_iff, List.chain'_cons']
        refine ⟨?_, (noTwoWS_iff _).mp ih.2⟩
        intro b hb'
        rw [head?_collapseWS] at hb'
        simp only [Option.mem_def, Option.some.injEq] at hb'
        subst hb'
        have hnot : ¬(isWS c1 = true ∧ isWS c2 = true) := by
          intro ⟨x, y⟩; simp [x, y] at hb
        intro ⟨x, y⟩
        apply hnot
        constructor
        · by_cases h1 : isWS c1 = true
          · exact h1
          · simp [if_neg h1] at x; exact absurd x h1
        · by_cases h2 : isWS c2 = true
          · exact h2
          · simp [if_neg h2] at y; exact absurd y h2

theorem collapsed_fix : ∀ {l : Str}, Collapsed l → collapseWS l = l
  | [], _ => rfl
  | [c], h => by
    unfold collapseWS
    split
    · next hws => rw [h.1 c (List.mem_singleton_self c) hws]
    · rfl
  | c1 :: c2 :: rest, h => by
    have hchain := (List.chain'_cons.mp ((noTwoWS_iff _).mp h.2)).1
    unfold collapseWS
    split
    · next hb =>
      exact absurd ⟨(Bool.and_eq_true _ _ |>.mp hb).1, (Bool.and_eq_true _ _ |>.mp hb).2⟩ hchain
    · have htail : Collapsed (c2 :: rest) := by
        refine ⟨fun d hd hws => h.1 d (List.mem_cons_of_mem _ hd) hws,
          (noTwoWS_iff _).mpr (List.chain'_cons.mp ((noTwoWS_iff _).mp h.2)).2⟩
      rw [collapsed_fix htail]
      split
      · next hws => rw [h.1 c1 (List.mem_cons_self _ _) hws]
      · rfl

theorem dropWhile_idem (p : Char → Bool) (l : Str) :
    List.dropWhile p (List.dropWhile p l) = List.dropWhile p l := by
  induction l with
  | nil => rfl
  | cons a t ih =>
    rw [List.dropWhile_cons]
    split
    · exact ih
    · next h => rw [List.dropWhile_cons, if_neg h]

theorem dropWhile_eq_self_of_head {p : Char → Bool} {l : Str}
    (h : ∀ x, l.head? = some x → p x = false) : List.dropWhile p l = l := by
  cases l with
  | nil => rfl
  | cons a t =>
    rw [List.dropWhile_cons, if_neg]
    rw [h a rfl]
    simp

theorem head?_dropWhile {p : Char → Bool} : ∀ {l : Str} {x : Char},
    (List.dropWhile p l).head? = some x → p x = false := by
  intro l
  induction l with
  | nil => intro x h; simp at h
  | cons a t ih =>
    intro x h
    rw [List.dropWhile_cons] at h
    split at h
    · exact ih h
    · next hp =>
      simp only [List.head?_cons, Option.some.injEq] at h
      subst h
      simpa using hp

theorem mem_stripWS {c : Char} {l : Str} (h : c ∈ stripWS l) : c ∈ l := by
  unfold stripWS at h
  rw [List.mem_reverse] at h
  have h1 := (List.dropWhile_sublist (l := (l.dropWhile isWS).reverse) isWS).subset h
  rw [List.mem_reverse] at h1
  exact (List.dropWhile_sublist (l := l) isWS).subset h1

theorem stripWS_idem (l : Str) : stripWS (stripWS l) = stripWS l := by
  have hrev : (stripWS l).reverse = List.dropWhile isWS ((l.dropWhile isWS).reverse) := by
    unfold stripWS
    rw [List.reverse_reverse]
  have f2 : (stripWS l).reverse.dropWhile isWS = (stripWS l).reverse := by
    rw [hrev]; exact dropWhile_idem _ _
  have f1 : (stripWS l).dropWhile isWS = stripWS l := by
    apply dropWhile_eq_self_of_head
    intro x hx
    rw [← List.getLast?_reverse, hrev] at hx
    -- x is the last element of a dropWhile-suffix of (l.dropWhile isWS).reverse
    rcases List.dropWhile_suffix (l := (l.dropWhile isWS).reverse) isWS with ⟨t, ht⟩
    have hne : List.dropWhile isWS ((l.dropWhile isWS).reverse) ≠ [] := by
      intro he; rw [he] at hx; simp at hx
    have hx2 : ((l.dropWhile isWS).reverse).getLast? = some x := by
      rw [← ht, List.getLast?_append_of_ne_nil t hne]; exact hx
    rw [List.getLast?_reverse] at hx2
    exact head?_dropWhile hx2
  calc stripWS (stripWS l)
      = ((stripWS l).reverse.dropWhile isWS).reverse := by rw [stripWS, f1]
    _ = stripWS l := by rw [f2, List.reverse_reverse]

theorem collapsed_stripWS {l : Str} (h : Collapsed l) : Collapsed (stripWS l) := by
  constructor
  · exact fun c hc hws => h.1 c (mem_stripWS hc) hws
  · -- the chain property restricts to the doubly-dropped sublist
    have hR : l.Chain' (fun a b => ¬(isWS a = true ∧ isWS b = true)) := (noTwoWS_iff _).mp h.2
    have h1 : (l.dropWhile isWS).Chain' (fun a b => ¬(isWS a = true ∧ isWS b = true)) := by
      rcases List.dropWhile_suffix (l := l) isWS with ⟨t, ht⟩
      rw [← ht] at hR
      exact ((List.chain'_append.mp hR).2).1
    have h2 : ((l.dropWhile isWS).reverse).Chain'
        (fun a b => ¬(isWS a = true ∧ isWS b = true)) := by
      rw [List.chain'_reverse]
      exact h1.imp (fun a b hab => by intro ⟨x, y⟩; exact hab ⟨y, x⟩)
    have h3 : ((l.dropWhile isWS).reverse.dropWhile isWS).Chain'
        (fun a b => ¬(isWS a = true ∧ isWS b = true)) := by
      rcases List.dropWhile_suffix (l := (l.dropWhile isWS).reverse) isWS with ⟨t, ht⟩
      rw [← ht] at h2
      exact ((List.chain'_append.mp h2).2).1
    rw [noTwoWS_iff]
    unfold stripWS
    rw [List.chain'_reverse]
    exact h3.imp (fun a b hab => by intro ⟨x, y⟩; exact hab ⟨y, x⟩)

theorem collapseWS_stripWS_collapseWS (l : Str) :
    collapseWS (stripWS (collapseWS l)) = stripWS (collapseWS l) :=
  collapsed_fix (collapsed_stripWS (collapseWS_collapsed l))

/-! ## Properties of the normalizers -/

theorem stripWS_map (f : Char → Char) (hf : ∀ c, isWS (f c) = isWS c) (l : Str) :
    stripWS (l.map f) = (stripWS l).map f := by
  have hp : (isWS ∘ f) = isWS := funext fun c => hf c
  unfold stripWS
  rw [List.dropWhile_map f isWS l, hp, ← List.map_reverse,
    List.dropWhile_map f isWS _, hp, ← List.map_reverse]

theorem collapseWS_map (f : Char → Char) (hf : ∀ c, isWS (f c) = isWS c)
    (hsp : f ' ' = ' ') : ∀ (l : Str), collapseWS (l.map f) = (collapseWS l).map f
  | [] => rfl
  | [c] => by
    simp only [List.map_cons, List.map_nil]
    unfold collapseWS
    rw [hf c]
    split
    · simp [hsp]
    · simp
  | c1 :: c2 :: rest => by
    simp only [List.map_cons]
    unfold collapseWS
    rw [hf c1, hf c2]
    split
    · rw [← List.map_cons f c2 rest]
      exact collapseWS_map f hf hsp (c2 :: rest)
    · rw [← List.map_cons f c2 rest, collapseWS_map f hf hsp (c2 :: rest)]
      simp only [List.map_cons]
      congr 1
      split
      · rw [hsp]
      · rfl

theorem mem_normalize_alias_fixed {c : Char} {l : Str} (h : c ∈ normalize_alias l) :
    lowerChar c = c ∧ yoChar c = c := by
  unfold normalize_alias at h
  have h1 := mem_stripWS h
  rcases mem_collapseWS h1 with h2 | h2
  · subst h2; exact ⟨by decide, by decide⟩
  · rcases List.mem_map.mp h2 with ⟨b, hb, hbc⟩
    rcases List.mem_map.mp hb with ⟨a, _, hab⟩
    subst hbc; subst hab
    exact ⟨lowerChar_yoChar_lowerChar a, yoChar_idem (lowerChar a)⟩

theorem mem_normalize_alias_ws {c : Char} {l : Str} (h : c ∈ normalize_alias l)
    (hws : isWS c = true) : c = ' ' := by
  unfold normalize_alias at h
  exact (collapsed_stripWS (collapseWS_collapsed _)).1 c h hws

theorem lowerStr_normalize_alias (l : Str) :
    lowerStr (normalize_alias l) = normalize_alias l := by
  unfold lowerStr
  rw [List.map_congr_left (fun a ha => (mem_normalize_alias_fixed ha).1)]
  exact List.map_id _

theorem yoStr_normalize_alias (l : Str) :
    yoStr (normalize_alias l) = normalize_alias l := by
  unfold yoStr
  rw [List.map_congr_left (fun a ha => (mem_normalize_alias_fixed ha).2)]
  exact List.map_id _

theorem stripWS_normalize_alias (l : Str) :
    stripWS (normalize_alias l) = normalize_alias l := by
  unfold normalize_alias
  rw [stripWS_idem]

theorem collapseWS_normalize_alias (l : Str) :
    collapseWS (normalize_alias l) = normalize_alias l := by
  unfold normalize_alias
  rw [collapseWS_stripWS_collapseWS]

theorem normalize_alias_idempotent (l : Str) :
    normalize_alias (normalize_alias l) = normalize_alias l := by
  conv_lhs => rw [normalize_alias]
  rw [show lowerStr (normalize_alias l) = normalize_alias l from lowerStr_normalize_alias l,
    show yoStr (normalize_alias l) = normalize_alias l from yoStr_normalize_alias l,
    collapseWS_normalize_alias, stripWS_normalize_alias]

/-! ## Generic list helpers -/

theorem mem_pySet_go [DecidableEq α] {x : α} :
    ∀ {l seen : List α}, x ∈ pySet.go seen l → x ∈ l
  | [], _, h => absurd h (by simp [pySet.go])
  | a :: rest, seen, h => by
    unfold pySet.go at h
    split at h
    · exact List.mem_cons_of_mem _ (mem_pySet_go h)
    · rcases List.mem_cons.mp h with h' | h'
      · exact h' ▸ List.mem_cons_self _ _
      · exact List.mem_cons_of_mem _ (mem_pySet_go h')

theorem mem_pySet [DecidableEq α] {x : α} {l : List α} (h : x ∈ pySet l) : x ∈ l :=
  mem_pySet_go h

theorem pySet_cons [DecidableEq α] (x : α) (l : List α) :
    pySet (x :: l) = x :: pySet.go [x] l := rfl

theorem mem_prioritize {E : AliasExpander} {v : Str} {l : List Str}
    (h : v ∈ prioritize_aliases E l) : v ∈ l := by
  unfold prioritize_aliases at h
  split at h
  · exact h
  · exact List.take_subset _ _ h

theorem length_prioritize (E : AliasExpander) (l : List Str) :
    (prioritize_aliases E l).length ≤ E.max_aliases := by
  unfold prioritize_aliases
  split
  · next h => exact h
  · simp [List.length_take]

theorem head_mem_prioritize {E : AliasExpander} (h : 0 < E.max_aliases)
    (x : Str) (l : List Str) : x ∈ prioritize_aliases E (x :: l) := by
  unfold prioritize_aliases
  split
  · exact List.mem_cons_self _ _
  · cases hm : E.max_aliases with
    | zero => omega
    | succ k => simp [List.take_cons]

theorem pySplitAux_no_ws : ∀ {l : Str}, (∀ c ∈ l, isWS c = false) →
    ∀ (cur : Str), cur.reverse ++ l ≠ [] → pySplitAux l cur = [cur.reverse ++ l]
  | [], _, cur, hne => by
    unfold pySplitAux
    rw [if_neg]
    · simp
    · simpa using hne
  | c :: rest, h, cur, _ => by
    unfold pySplitAux
    rw [if_neg (by rw [h c (List.mem_cons_self _ _)]; simp)]
    rw [pySplitAux_no_ws (fun d hd => h d (List.mem_cons_of_mem _ hd)) (c :: cur) (by simp)]
    simp

theorem pySplit_no_ws {l : Str} (h : ∀ c ∈ l, isWS c = false) (hne : l ≠ []) :
    pySplit l = [l] := by
  unfold pySplit
  rw [pySplitAux_no_ws h [] (by simpa using hne)]
  rfl

theorem pySplit_len_le_one {l : Str} (h : ∀ c ∈ l, isWS c = false) :
    (pySplit l).length ≤ 1 := by
  cases l with
  | nil => simp [pySplit, pySplitAux]
  | cons c rest => rw [pySplit_no_ws h (by simp)]; simp

theorem exists_ws_of_pySplit {l : Str} (h : 2 ≤ (pySplit l).length) :
    ∃ c ∈ l, isWS c = true := by
  by_contra hcon
  push_neg at hcon
  have : ∀ c ∈ l, isWS c = false := by
    intro c hc
    cases hb : isWS c
    · rfl
    · exact absurd hb (hcon c hc)
  have := pySplit_len_le_one this
  omega

/-! ## Claim C8 -/

/-- C8: the alias normalizer is idempotent: for every string `s`,
`normalize_alias (normalize_alias s) = normalize_alias s`. -/
theorem c8_normalize_alias_idempotent (s : Str) :
    normalize_alias (normalize_alias s) = normalize_alias s :=
  normalize_alias_idempotent s

/-! ## Claim C3 -/

/-- C3 counterexample: the scan-time normalizer and the build-time alias
normalizer differ on a string with a whitespace run —
`_normalize_text` does not collapse whitespace. -/
theorem c3_counterexample :
    normalize_text (str "a  b") ≠ normalize_alias (str "a  b") := by decide

theorem collapsed_normalize_text {s : Str} (h : Collapsed s) :
    Collapsed (normalize_text s) := by
  have hmap : normalize_text s = s.map (fun c => yoChar (lowerChar c)) := by
    unfold normalize_text yoStr lowerStr
    rw [List.map_map]
    rfl
  constructor
  · intro c hc hws
    rw [hmap] at hc
    rcases List.mem_map.mp hc with ⟨a, ha, hac⟩
    have hwa : isWS a = true := by
      rw [← isWS_lowerChar a, ← isWS_yoChar (lowerChar a), hac, hws]
    rw [← hac, h.1 a ha hwa]
    decide
  · rw [noTwoWS_iff, hmap, List.chain'_map]
    exact ((noTwoWS_iff _).mp h.2).imp (fun a b hab => by
      rw [isWS_yoChar, isWS_lowerChar, isWS_yoChar, isWS_lowerChar]
      exact hab)

theorem stripWS_normalize_text {s : Str} (h : stripWS s = s) :
    stripWS (normalize_text s) = normalize_text s := by
  have hmap : normalize_text s = s.map (fun c => yoChar (lowerChar c)) := by
    unfold normalize_text yoStr lowerStr
    rw [List.map_map]
    rfl
  rw [hmap, stripWS_map _ (fun c => by rw [isWS_yoChar, isWS_lowerChar]) s, h]

/-- C3 amended: both normalizers lowercase and replace `ё`, but only the
build-time `normalize_alias` collapses whitespace runs and trims; the
two agree exactly on inputs whose whitespace is already in collapsed,
trimmed form. -/
theorem c3_amended :
    (∀ s : Str, normalize_alias s = stripWS (collapseWS (normalize_text s))) ∧
    (∀ s : Str, Collapsed s → stripWS s = s → normalize_alias s = normalize_text s) := by
  constructor
  · intro s; rfl
  · intro s hc hs
    show stripWS (collapseWS (normalize_text s)) = normalize_text s
    rw [collapsed_fix (collapsed_normalize_text hc), stripWS_normalize_text hs]

/-- C3 amended, witness: on an already collapsed-and-trimmed input the
two normalizers agree. -/
theorem c3_amended_witness :
    normalize_alias (str "Ёлка в лесу") = normalize_text (str "Ёлка в лесу") :=
  c3_amended.2 (str "Ёлка в лесу") (by decide) (by decide)

/-! ## Claim C6 -/

theorem expand_person_dot_or_space (E : AliasExpander) (name : Str) :
    ∀ v ∈ expand_person_name E name, '.' ∈ v ∨ ' ' ∈ v := by
  intro v hv
  unfold expand_person_name at hv
  have h1 := mem_pySet (mem_prioritize hv)
  rw [List.mem_filter] at h1
  obtain ⟨hmem, hcond⟩ := h1
  rw [Bool.or_eq_true] at hcond
  rcases hcond with hc | hc
  · exact Or.inl (by simpa using hc)
  · right
    have h2 : 2 ≤ (pySplit v).length := of_decide_eq_true hc
    rcases exists_ws_of_pySplit h2 with ⟨c, hcmem, hws⟩
    rcases List.mem_map.mp hmem with ⟨w, _, hw⟩
    have hsp : c = ' ' := mem_normalize_alias_ws (by rw [hw]; exact hcmem) hws
    exact hsp ▸ hcmem

/-- C6: for every name expanded as a person, every retained alias
contains a space or a dot — no retained person alias is a single
undotted word. -/
theorem c6_person_alias_space_or_dot (E : AliasExpander) (name : Str) :
    ∀ v ∈ expand_person_name E name, '.' ∈ v ∨ ' ' ∈ v :=
  expand_person_dot_or_space E name

/-- C6 witness: a concrete person expansion, on the expander the service
constructs, contains the alias `"иванов петр"`, which indeed carries a
space or dot. -/
theorem c6_person_alias_space_or_dot_witness :
    '.' ∈ str "иванов петр" ∨ ' ' ∈ str "иванов петр" :=
  c6_person_alias_space_or_dot EW (str "Иванов Петр") (str "иванов петр") (by decide)

/-! ## Claims C1 and C2 -/

theorem not_dangerous_facts {a : Str} (hv : is_dangerous_alias a = false) :
    3 ≤ (stripWS (lowerStr a)).length ∧
      COMMON_RUSSIAN_WORDS.contains (stripWS (lowerStr a)) = false := by
  by_cases h1 : (stripWS (lowerStr a)).length < 3
  · exfalso
    have : is_dangerous_alias a = true := by
      simp only [is_dangerous_alias]
      rw [if_pos h1]
    rw [this] at hv; exact absurd hv (by simp)
  · refine ⟨by omega, ?_⟩
    by_cases h2 : COMMON_RUSSIAN_WORDS.contains (stripWS (lowerStr a)) = true
    · exfalso
      have : is_dangerous_alias a = true := by
        simp only [is_dangerous_alias]
        rw [if_neg h1, if_pos h2]
      rw [this] at hv; exact absurd hv (by simp)
    · simpa using h2

/-- C1 counterexample: a generated (not precomputed) alias reaches the
automaton without the dangerous-alias filter.  For the registry row
`Исламское государство / террористы` the terrorist strategy emits the
hard-coded abbreviation `"иг"`, which has length 2 < 3 and is flagged by
`is_dangerous_alias`, yet it is among the keywords inserted into the
index. -/
theorem c1_counterexample :
    str "иг" ∈ rowAliases EW c1Row ∧
      (str "иг", (str "иг", c1Row)) ∈ buildInserts EW [c1Row] ∧
      is_dangerous_alias (str "иг") = true ∧ (str "иг").length < 3 := by
  refine ⟨by decide, by decide, by decide, by decide⟩

/-- C1 amended: the invariant does hold on the precomputed-aliases path.
When a row's aliases come from a parsed `aliases` column, every alias
retained for the index has length ≥ 3, is a fixed point of
`normalize_alias`, is not in `COMMON_RUSSIAN_WORDS`, and passes
`is_dangerous_alias`; rows whose aliases are generated by the type
strategies are inserted without this filter. -/
theorem c1_amended (E : AliasExpander) (r : Row) (raw : List Str)
    (h : r.aliasesParsed = some raw) :
    ∀ a ∈ rowAliases E r, is_dangerous_alias a = false ∧ 3 ≤ a.length ∧
      normalize_alias a = a ∧ a ∉ COMMON_RUSSIAN_WORDS := by
  intro a ha
  unfold rowAliases at ha
  rw [h, List.mem_filter, Bool.not_eq_true'] at ha
  obtain ⟨hmem, hnd⟩ := ha
  rcases List.mem_map.mp hmem with ⟨w, _, hw⟩
  have hlower : stripWS (lowerStr a) = a := by
    rw [← hw, lowerStr_normalize_alias, stripWS_normalize_alias]
  have hfix : normalize_alias a = a := by
    rw [← hw]; exact normalize_alias_idempotent w
  have hfacts := not_dangerous_facts hnd
  rw [hlower] at hfacts
  refine ⟨hnd, hfacts.1, hfix, ?_⟩
  intro hmem2
  have : COMMON_RUSSIAN_WORDS.contains a = true := by simpa using hmem2
  rw [this] at hfacts
  exact absurd hfacts.2 (by simp)

/-- C1 amended, witness: one precomputed alias, normalized and kept,
satisfies all four facts. -/
theorem c1_amended_witness :
    is_dangerous_alias (str "навальный алексей") = false ∧
      3 ≤ (str "навальный алексей").length ∧
      normalize_alias (str "навальный алексей") = str "навальный алексей" ∧
      str "навальный алексей" ∉ COMMON_RUSSIAN_WORDS :=
  c1_amended EW
    { id := some (str "p1"), entity_name := some (str "Навальный Алексей"),
      aliasesParsed := some [str "Навальный Алексей"] }
    [str "Навальный Алексей"] rfl (str "навальный алексей") (by decide)

set_option maxRecDepth 8000 in
/-- C2 counterexample: the precomputed-aliases path applies no
`max_aliases` truncation — a row with 101 safe precomputed aliases
retains all 101 of them (the claimed bound is 100). -/
theorem c2_counterexample :
    (rowAliases EW c2Row).length = 101 ∧
      (buildInserts EW [c2Row]).length = 101 ∧ 100 < 101 := by
  refine ⟨by decide, by decide, by decide⟩

/-- C2 amended: only the person strategy truncates.  For every expander
and name, person expansion retains at most `max_aliases` aliases; the
precomputed-aliases path (and the other type strategies) apply no such
truncation. -/
theorem c2_amended (E : AliasExpander) (name : Str) :
    (expand_person_name E name).length ≤ E.max_aliases := by
  unfold expand_person_name
  exact length_prioritize E _

/-! ## Scanner lemmas (claims C4, C5) -/

theorem scanLoop_mem {n : Str} : ∀ {fs : List (Nat × Str × Row)} {p : List Str}
    {f : Nat × Str × Row}, f ∈ scanLoop n fs p →
    f ∈ fs ∧ boundaryOk n f.1 f.2.1 = true ∧ entityIdOf f.2.2 ∉ p
  | [], p, f, h => absurd h (by simp [scanLoop])
  | (e, kw, ent) :: rest, p, f, h => by
    unfold scanLoop at h
    split at h
    · obtain ⟨h1, h2, h3⟩ := scanLoop_mem h
      exact ⟨List.mem_cons_of_mem _ h1, h2, h3⟩
    · next hid =>
      split at h
      · next hbd =>
        rcases List.mem_cons.mp h with h' | h'
        · subst h'
          exact ⟨List.mem_cons_self _ _, hbd, hid⟩
        · obtain ⟨h1, h2, h3⟩ := scanLoop_mem h'
          exact ⟨List.mem_cons_of_mem _ h1, h2,
            fun hp => h3 (List.mem_cons_of_mem _ hp)⟩
      · obtain ⟨h1, h2, h3⟩ := scanLoop_mem h
        exact ⟨List.mem_cons_of_mem _ h1, h2, h3⟩

theorem scanLoop_nodup (n : Str) : ∀ (fs : List (Nat × Str × Row)) (p : List Str),
    ((scanLoop n fs p).map (fun f => entityIdOf f.2.2)).Nodup
  | [], p => by simp [scanLoop]
  | (e, kw, ent) :: rest, p => by
    unfold scanLoop
    split
    · exact scanLoop_nodup n rest p
    · split
      · rw [List.map_cons, List.nodup_cons]
        refine ⟨?_, scanLoop_nodup n rest _⟩
        intro hmem
        rcases List.mem_map.mp hmem with ⟨g, hg, hgid⟩
        exact (scanLoop_mem hg).2.2 (hgid ▸ List.mem_cons_self _ _)
      · exact scanLoop_nodup n rest p

theorem scanLoop_first {n : Str} : ∀ {fs : List (Nat × Str × Row)} {p : List Str}
    {f : Nat × Str × Row}, f ∈ scanLoop n fs p →
    ∃ pre post, fs = pre ++ f :: post ∧
      ∀ g ∈ pre, entityIdOf g.2.2 = entityIdOf f.2.2 → boundaryOk n g.1 g.2.1 = false
  | [], p, f, h => absurd h (by simp [scanLoop])
  | (e, kw, ent) :: rest, p, f, h => by
    unfold scanLoop at h
    split at h
    · next hid =>
      obtain ⟨pre, post, heq, hpre⟩ := scanLoop_first h
      refine ⟨(e, kw, ent) :: pre, post, by rw [heq]; rfl, ?_⟩
      intro g hg hgid
      rcases List.mem_cons.mp hg with h' | h'
      · subst h'
        exact absurd (hgid ▸ hid) (scanLoop_mem h).2.2
      · exact hpre g h' hgid
    · next hid =>
      split at h
      · next hbd =>
        rcases List.mem_cons.mp h with h' | h'
        · subst h'
          exact ⟨[], rest, rfl, by simp⟩
        · obtain ⟨pre, post, heq, hpre⟩ := scanLoop_first h'
          refine ⟨(e, kw, ent) :: pre, post, by rw [heq]; rfl, ?_⟩
          intro g hg hgid
          rcases List.mem_cons.mp hg with h2 | h2
          · subst h2
            exact absurd (hgid ▸ List.mem_cons_self _ _) (scanLoop_mem h').2.2
          · exact hpre g h2 hgid
      · next hbd =>
        obtain ⟨pre, post, heq, hpre⟩ := scanLoop_first h
        refine ⟨(e, kw, ent) :: pre, post, by rw [heq]; rfl, ?_⟩
        intro g hg hgid
        rcases List.mem_cons.mp hg with h2 | h2
        · subst h2; simpa using hbd
        · exact hpre g h2 hgid

theorem scanLoop_complete {n : Str} : ∀ (pre : List (Nat × Str × Row))
    {f : Nat × Str × Row} {post : List (Nat × Str × Row)} {p : List Str},
    entityIdOf f.2.2 ∉ p → boundaryOk n f.1 f.2.1 = true →
    (∀ g ∈ pre, entityIdOf g.2.2 = entityIdOf f.2.2 → boundaryOk n g.1 g.2.1 = false) →
    f ∈ scanLoop n (pre ++ f :: post) p
  | [], f, post, p, hid, hbd, _ => by
    obtain ⟨e, kw, ent⟩ := f
    show (e, kw, ent) ∈ scanLoop n ((e, kw, ent) :: post) p
    unfold scanLoop
    rw [if_neg hid, if_pos hbd]
    exact List.mem_cons_self _ _
  | g :: pre, f, post, p, hid, hbd, hpre => by
    obtain ⟨e, kw, ent⟩ := g
    show f ∈ scanLoop n ((e, kw, ent) :: (pre ++ f :: post)) p
    unfold scanLoop
    by_cases h1 : entityIdOf ent ∈ p
    · rw [if_pos h1]
      exact scanLoop_complete pre hid hbd
        (fun g' hg' => hpre g' (List.mem_cons_of_mem _ hg'))
    · rw [if_neg h1]
      by_cases h2 : boundaryOk n e kw = true
      · have hne : entityIdOf ent ≠ entityIdOf f.2.2 := by
          intro hcontra
          have hfalse := hpre (e, kw, ent) (List.mem_cons_self _ _) hcontra
          rw [h2] at hfalse
          exact absurd hfalse (by simp)
        rw [if_pos h2]
        refine List.mem_cons_of_mem _ ?_
        refine scanLoop_complete pre ?_ hbd
          (fun g' hg' => hpre g' (List.mem_cons_of_mem _ hg'))
        intro hmem
        rcases List.mem_cons.mp hmem with h3 | h3
        · exact hne h3.symm
        · exact hid h3
      · rw [if_neg h2]
        exact scanLoop_complete pre hid hbd
          (fun g' hg' => hpre g' (List.mem_cons_of_mem _ hg'))

theorem occursEndingAt_facts {kw n : Str} {e : Nat}
    (h : occursEndingAt kw n e = true) :
    kw ≠ [] ∧ kw.length ≤ e + 1 ∧ e < n.length := by
  unfold occursEndingAt at h
  simp only [Bool.and_eq_true, Bool.not_eq_true', List.isEmpty_eq_false,
    decide_eq_true_eq] at h
  exact ⟨h.1.1.1, h.1.1.2, h.1.2⟩

/-- C4: every candidate the scanner emits passes the word-boundary
check: with `start = end - len(alias) + 1`, the character of the
normalized text immediately before `start` does not exist or is
non-alphanumeric, and likewise the character immediately after `end`;
`find_raw_candidates` is exactly the image of the accepted hits. -/
theorem c4_word_boundary (text : Str) (findings : List (Nat × Str × Row))
    (hv : ∀ f ∈ findings, ValidFinding (normalize_text text) f) :
    find_raw_candidates text findings =
      (scanLoop (normalize_text text) findings []).map (mkCandidate text) ∧
    ∀ f ∈ scanLoop (normalize_text text) findings [],
      (f.1 + 1 - f.2.1.length = 0 ∨
        ∃ c, (normalize_text text)[f.1 + 1 - f.2.1.length - 1]? = some c ∧
          isAlnumCh c = false) ∧
      (f.1 + 1 = (normalize_text text).length ∨
        ∃ c, (normalize_text text)[f.1 + 1]? = some c ∧ isAlnumCh c = false) := by
  set n := normalize_text text with hn
  refine ⟨rfl, ?_⟩
  intro f hf
  obtain ⟨hmem, hbd, -⟩ := scanLoop_mem hf
  obtain ⟨hkw, hlen, hend⟩ := occursEndingAt_facts (hv f hmem)
  rw [boundaryOk, Bool.and_eq_true] at hbd
  obtain ⟨hleft, hright⟩ := hbd
  constructor
  · by_cases h0 : f.1 + 1 - f.2.1.length = 0
    · exact Or.inl h0
    · right
      rw [isLeftBoundary, Bool.or_eq_true] at hleft
      rcases hleft with hl | hl
      · exact absurd (of_decide_eq_true hl) h0
      · have hidx : f.1 + 1 - f.2.1.length - 1 < n.length := by omega
        refine ⟨n[f.1 + 1 - f.2.1.length - 1], List.getElem?_eq_getElem hidx, ?_⟩
        rw [Bool.not_eq_true'] at hl
        rw [← List.getD_eq_getElem n ' ' hidx]
        exact hl
  · by_cases h0 : f.1 + 1 = n.length
    · exact Or.inl h0
    · right
      rw [isRightBoundary, Bool.or_eq_true] at hright
      rcases hright with hr | hr
      · exact absurd (of_decide_eq_true hr) h0
      · have hidx : f.1 + 1 < n.length := by omega
        refine ⟨n[f.1 + 1], List.getElem?_eq_getElem hidx, ?_⟩
        rw [Bool.not_eq_true'] at hr
        rw [← List.getD_eq_getElem n ' ' hidx]
        exact hr

/-- C4 witness: in the text `"w ab"`, the hit on alias `"ab"` at end
index 3 is accepted and flanked by a space and the string end. -/
theorem c4_word_boundary_witness :
    (3 + 1 - (str "ab").length = 0 ∨
      ∃ c, (normalize_text (str "w ab"))[3 + 1 - (str "ab").length - 1]? = some c ∧
        isAlnumCh c = false) ∧
    (3 + 1 = (normalize_text (str "w ab")).length ∨
      ∃ c, (normalize_text (str "w ab"))[3 + 1]? = some c ∧ isAlnumCh c = false) :=
  (c4_word_boundary (str "w ab") [(3, str "ab", rowW)] (by decide)).2
    (3, str "ab", rowW) (by decide)

/-- C5: each `entity_id` appears at most once in the scan result; an
accepted hit is the first hit of its entity that passes the word
boundary check (every earlier same-entity hit failed it), and
conversely a hit passing the boundary check whose earlier same-entity
hits all failed is emitted — a boundary-failing hit does not block a
later valid hit. -/
theorem c5_entity_dedup (text : Str) (findings : List (Nat × Str × Row)) :
    ((find_raw_candidates text findings).map (fun c => c.entity_id)).Nodup ∧
    (∀ f ∈ scanLoop (normalize_text text) findings [],
      boundaryOk (normalize_text text) f.1 f.2.1 = true ∧
      ∃ pre post, findings = pre ++ f :: post ∧
        ∀ g ∈ pre, entityIdOf g.2.2 = entityIdOf f.2.2 →
          boundaryOk (normalize_text text) g.1 g.2.1 = false) ∧
    (∀ (pre : List (Nat × Str × Row)) (f : Nat × Str × Row)
        (post : List (Nat × Str × Row)), findings = pre ++ f :: post →
      boundaryOk (normalize_text text) f.1 f.2.1 = true →
      (∀ g ∈ pre, entityIdOf g.2.2 = entityIdOf f.2.2 →
        boundaryOk (normalize_text text) g.1 g.2.1 = false) →
      f ∈ scanLoop (normalize_text text) findings []) := by
  refine ⟨?_, ?_, ?_⟩
  · rw [find_raw_candidates, List.map_map]
    exact scanLoop_nodup (normalize_text text) findings []
  · intro f hf
    exact ⟨(scanLoop_mem hf).2.1, scanLoop_first hf⟩
  · intro pre f post heq hbd hpre
    rw [heq]
    exact scanLoop_complete pre (by simp) hbd hpre

/-- C5 witness: with two hits of the same entity, the first failing the
boundary check and the second passing it, the second is emitted (the
failing hit does not block it) and entity ids in the scan result are
unique. -/
theorem c5_entity_dedup_witness :
    ((find_raw_candidates (str "ya ab") [(1, str "a", rowW), (4, str "ab", rowW)]).map
      (fun c => c.entity_id)).Nodup ∧
    (4, str "ab", rowW) ∈
      scanLoop (normalize_text (str "ya ab")) [(1, str "a", rowW), (4, str "ab", rowW)] [] :=
  ⟨(c5_entity_dedup (str "ya ab") [(1, str "a", rowW), (4, str "ab", rowW)]).1,
    (c5_entity_dedup (str "ya ab") [(1, str "a", rowW), (4, str "ab", rowW)]).2.2
      [(1, str "a", rowW)] (4, str "ab", rowW) [] rfl (by decide) (by decide)⟩

/-! ## Claim C7: last-insert-wins index -/

theorem lookup_cons_eq {β : Type} (k : Str) (v : β) (rest : List (Str × β)) :
    List.lookup k ((k, v) :: rest) = some v := by
  rw [List.lookup_cons]
  have h : (k == k) = true := by simp
  rw [h]

theorem lookup_cons_ne {β : Type} {a k : Str} (h : a ≠ k) (v : β)
    (rest : List (Str × β)) :
    List.lookup a ((k, v) :: rest) = List.lookup a rest := by
  rw [List.lookup_cons]
  have hb : (a == k) = false := by simpa using h
  rw [hb]

theorem lookup_map_replace_hit {β : Type} {k : Str} {v : β} :
    ∀ {m : List (Str × β)}, m.any (fun p => p.1 == k) = true →
      List.lookup k (m.map (fun p => if p.1 == k then (k, v) else p)) = some v
  | [], h => by simp at h
  | (k', v') :: rest, h => by
    simp only [List.map_cons]
    by_cases hk : k' = k
    · subst hk
      rw [if_pos (by simp)]
      exact lookup_cons_eq k' v _
    · rw [if_neg (by simpa using hk)]
      rw [List.any_cons] at h
      have hrest : rest.any (fun p => p.1 == k) = true := by
        rcases Bool.or_eq_true _ _ |>.mp h with h' | h'
        · exact absurd (by simpa using h') hk
        · exact h'
      rw [lookup_cons_ne (by simpa using Ne.symm hk) v' _]
      exact lookup_map_replace_hit hrest

theorem lookup_map_replace_miss {β : Type} {k a : Str} {v : β} (hka : k ≠ a) :
    ∀ (m : List (Str × β)),
      List.lookup a (m.map (fun p => if p.1 == k then (k, v) else p)) =
        List.lookup a m
  | [] => rfl
  | (k', v') :: rest => by
    simp only [List.map_cons]
    by_cases hk : k' = k
    · subst hk
      rw [if_pos (by simp)]
      have hak : a ≠ k' := fun h => hka h.symm
      rw [lookup_cons_ne hak v _, lookup_cons_ne hak v' _]
      exact lookup_map_replace_miss hka rest
    · rw [if_neg (by simpa using hk)]
      by_cases ha : a = k'
      · subst ha
        rw [lookup_cons_eq a v' _, lookup_cons_eq a v' _]
      · rw [lookup_cons_ne ha v' _, lookup_cons_ne ha v' _]
        exact lookup_map_replace_miss hka rest

theorem lookup_append_single {β : Type} {a k : Str} {v : β} :
    ∀ {m : List (Str × β)}, m.any (fun p => p.1 == k) = false →
      List.lookup a (m ++ [(k, v)]) =
        if k = a then some v else List.lookup a m
  | [], _ => by
    simp only [List.nil_append]
    by_cases h : k = a
    · subst h
      rw [if_pos rfl]
      exact lookup_cons_eq k v _
    · rw [if_neg h, lookup_cons_ne (fun he => h he.symm) v _]
  | (k', v') :: rest, h => by
    rw [List.any_cons, Bool.or_eq_false_iff] at h
    rw [List.cons_append]
    by_cases ha : a = k'
    · subst ha
      rw [lookup_cons_eq a v' _, lookup_cons_eq a v' _]
      have hka : k ≠ a := by
        intro he
        subst he
        have h1 := h.1
        simp at h1
      rw [if_neg hka]
    · rw [lookup_cons_ne ha v' _, lookup_cons_ne ha v' _]
      exact lookup_append_single h.2

theorem lookup_add_word {β : Type} (m : List (Str × β)) (k a : Str) (v : β) :
    List.lookup a (add_word m k v) = if k = a then some v else List.lookup a m := by
  unfold add_word
  split
  · next hany =>
    by_cases hka : k = a
    · subst hka
      rw [if_pos rfl]
      exact lookup_map_replace_hit hany
    · rw [if_neg hka]
      exact lookup_map_replace_miss hka m
  · next hany =>
    exact lookup_append_single (Bool.eq_false_iff.mpr hany)

theorem keys_add_word {β : Type} (m : List (Str × β)) (k : Str) (v : β) :
    (add_word m k v).map Prod.fst = m.map Prod.fst ∨
      (add_word m k v).map Prod.fst = m.map Prod.fst ++ [k] := by
  unfold add_word
  split
  · next hany =>
    left
    rw [List.map_map]
    apply List.map_congr_left
    intro p _
    by_cases hp : p.1 = k
    · simp [hp]
    · simp [Function.comp, if_neg (by simpa using hp)]
  · right
    simp

theorem keys_nodup_add_word {β : Type} {m : List (Str × β)} (k : Str) (v : β)
    (h : (m.map Prod.fst).Nodup) : ((add_word m k v).map Prod.fst).Nodup := by
  unfold add_word
  split
  · have heq : (m.map (fun p => if p.1 == k then (k, v) else p)).map Prod.fst
        = m.map Prod.fst := by
      rw [List.map_map]
      apply List.map_congr_left
      intro p _
      by_cases hp : p.1 = k
      · simp [hp]
      · simp [Function.comp, if_neg (by simpa using hp)]
    rw [heq]
    exact h
  · next hany =>
    rw [List.map_append, List.nodup_append]
    refine ⟨h, by simp, ?_⟩
    intro x hx hx2
    simp only [List.map_cons, List.map_nil, List.mem_singleton] at hx2
    subst hx2
    rcases List.mem_map.mp hx with ⟨p, hp, hpk⟩
    apply hany
    rw [List.any_eq_true]
    exact ⟨p, hp, by simpa using hpk⟩

theorem buildAutomaton_keys_nodup_aux {β : Type} :
    ∀ (ops : List (Str × β)) (m : List (Str × β)),
      (m.map Prod.fst).Nodup →
      (((ops.foldl (fun acc p => add_word acc p.1 p.2) m)).map Prod.fst).Nodup
  | [], _, h => h
  | (k, v) :: rest, m, h =>
    buildAutomaton_keys_nodup_aux rest (add_word m k v) (keys_nodup_add_word k v h)

theorem lookup_foldl {β : Type} (a : Str) :
    ∀ (ops : List (Str × β)) (m : List (Str × β)),
      List.lookup a (ops.foldl (fun acc p => add_word acc p.1 p.2) m) =
        match (ops.filter (fun p => p.1 == a)).getLast? with
        | some q => some q.2
        | none => List.lookup a m
  | [], m => by simp
  | (k, v) :: rest, m => by
    show List.lookup a (rest.foldl _ (add_word m k v)) = _
    rw [lookup_foldl a rest (add_word m k v), List.filter_cons]
    by_cases hka : k = a
    · rw [if_pos (show (((k, v).1 == a) = true) by simpa using hka)]
      cases hfr : (rest.filter (fun p => p.1 == a)).getLast? with
      | some q =>
        have hne : rest.filter (fun p => p.1 == a) ≠ [] := by
          intro he
          rw [he] at hfr
          simp at hfr
        obtain ⟨q2, t2, ht2⟩ := List.exists_cons_of_ne_nil hne
        rw [ht2] at hfr ⊢
        rw [List.getLast?_cons_cons, hfr]
      | none =>
        have hnil := List.getLast?_eq_none_iff.mp hfr
        rw [hnil]
        show List.lookup a (add_word m k v) = some v
        rw [lookup_add_word, if_pos hka]
    · rw [if_neg (show ¬(((k, v).1 == a) = true) by simpa using hka)]
      cases hfr : (rest.filter (fun p => p.1 == a)).getLast? with
      | some q => rfl
      | none =>
        show List.lookup a (add_word m k v) = List.lookup a m
        rw [lookup_add_word, if_neg hka]

theorem lookup_of_mem_nodup {β : Type} {k : Str} {v : β} :
    ∀ {m : List (Str × β)}, (k, v) ∈ m → (m.map Prod.fst).Nodup →
      List.lookup k m = some v
  | [], h, _ => absurd h (by simp)
  | (k', v') :: rest, h, hn => by
    rw [List.map_cons, List.nodup_cons] at hn
    by_cases hk : k = k'
    · subst hk
      rw [lookup_cons_eq k v' rest]
      rcases List.mem_cons.mp h with h' | h'
      · simp only [Prod.mk.injEq] at h'
        rw [h'.2]
      · exact absurd (List.mem_map.mpr ⟨(k, v), h', rfl⟩) hn.1
    · rw [lookup_cons_ne hk v' rest]
      rcases List.mem_cons.mp h with h' | h'
      · exact absurd (by simpa using congrArg Prod.fst h') hk
      · exact lookup_of_mem_nodup h' hn.2

/-- C7: the automaton index is last-insert-wins.  The built key map has
no duplicate keys; looking up an alias yields exactly the payload of the
last insertion with that alias; and every payload the automaton reports
during a scan is that unique stored payload of its key. -/
theorem c7_last_insert_wins {β : Type} (ops : List (Str × β)) :
    ((buildAutomaton ops).map Prod.fst).Nodup ∧
    (∀ a : Str, List.lookup a (buildAutomaton ops) =
      ((ops.filter (fun p => p.1 == a)).getLast?).map Prod.snd) ∧
    (∀ (n : Str) (e : Nat) (v : β), (e, v) ∈ automaton_iter (buildAutomaton ops) n →
      ∃ k, (k, v) ∈ buildAutomaton ops ∧
        List.lookup k (buildAutomaton ops) = some v) := by
  have hnodup : ((buildAutomaton ops).map Prod.fst).Nodup :=
    buildAutomaton_keys_nodup_aux ops [] (by simp)
  refine ⟨hnodup, ?_, ?_⟩
  · intro a
    have := lookup_foldl a ops []
    rw [buildAutomaton, this]
    cases hfr : (ops.filter (fun p => p.1 == a)).getLast? with
    | some q => simp
    | none => simp
  · intro n e v hmem
    unfold automaton_iter at hmem
    rw [List.mem_flatMap] at hmem
    obtain ⟨e', -, hmem2⟩ := hmem
    rw [List.mem_filterMap] at hmem2
    obtain ⟨p, hp, hif⟩ := hmem2
    split at hif
    · simp only [Option.some.injEq, Prod.mk.injEq] at hif
      refine ⟨p.1, ?_, ?_⟩
      · rw [← hif.2]; simpa using hp
      · have hl := lookup_of_mem_nodup (k := p.1) (v := p.2) (by simpa using hp) hnodup
        rw [hif.2] at hl
        exact hl
    · exact absurd hif (by simp)

/-- C7 witness: inserting `("ab", 1)` then `("ab", 2)` leaves the index
mapping `"ab"` to the later payload `2`, and a scan hit on `"ab"`
reports that payload. -/
theorem c7_last_insert_wins_witness :
    List.lookup (str "ab") (buildAutomaton [(str "ab", 1), (str "ab", 2)]) = some 2 ∧
    ∃ k, (k, 2) ∈ buildAutomaton [(str "ab", 1), (str "ab", 2)] ∧
      List.lookup k (buildAutomaton [(str "ab", 1), (str "ab", 2)]) = some 2 :=
  ⟨((c7_last_insert_wins [(str "ab", 1), (str "ab", 2)]).2.1 (str "ab")).trans (by decide),
    (c7_last_insert_wins [(str "ab", 1), (str "ab", 2)]).2.2 (str "ab") 1 2 (by decide)⟩

/-! ## Claim C9: telemetry logging -/

/-- C9 evaluation: on a scan with one emitted candidate and logging
enabled, exactly one JSON line is produced, its keys are exactly
`timestamp, alias, entity_id, entity_name, entity_type, context,
request_id`, `request_id` is null, `context` is the candidate context
(truncated to 300 characters), the file is
`.logs/matches-YYYY-MM-DD.jsonl`, and nothing is written when logging
is off — but the written timestamp is the LOCAL wall-clock reading with
a literal `"Z"` appended (`datetime.now().isoformat() + "Z"`), not the
UTC time of the match: at an instant when the local clock reads
`2025-06-01T15:00:00` and the UTC clock reads `2025-06-01T12:00:00`,
the line says `2025-06-01T15:00:00Z`. -/
theorem c9_telemetry_local_not_utc :
    (find_raw_candidates (str "ab cd") [(4, str "cd", row9)]).length = 1 ∧
    (telemetry_lines true (str "2025-06-01T15:00:00") (str "ab cd")
        [(4, str "cd", row9)]).map (fun entry => entry.map Prod.fst) =
      [[str "timestamp", str "alias", str "entity_id", str "entity_name",
        str "entity_type", str "context", str "request_id"]] ∧
    ((telemetry_lines true (str "2025-06-01T15:00:00") (str "ab cd")
        [(4, str "cd", row9)]).headD []).lookup (str "timestamp") =
      some (JVal.s (str "2025-06-01T15:00:00Z")) ∧
    JVal.s (str "2025-06-01T15:00:00Z") ≠ JVal.s (str "2025-06-01T12:00:00Z") ∧
    ((telemetry_lines true (str "2025-06-01T15:00:00") (str "ab cd")
        [(4, str "cd", row9)]).headD []).lookup (str "request_id") =
      some JVal.null ∧
    ((telemetry_lines true (str "2025-06-01T15:00:00") (str "ab cd")
        [(4, str "cd", row9)]).headD []).lookup (str "context") =
      some (JVal.s (((find_raw_candidates (str "ab cd")
        [(4, str "cd", row9)]).headD
          ⟨[], [], [], [], []⟩).context.take 300)) ∧
    telemetry_log_path (str "2025-06-01") = str ".logs/matches-2025-06-01.jsonl" ∧
    telemetry_lines false (str "2025-06-01T15:00:00") (str "ab cd")
      [(4, str "cd", row9)] = [] := by
  refine ⟨by decide, by decide, by decide, by decide, by decide, by decide, ?_, by decide⟩
  rfl

/-! ## Claim C10: single-word patronymic-suffixed names -/

theorem stripWS_eq_self_of_heads {l : Str}
    (hh : ∀ x, l.head? = some x → isWS x = false)
    (hl : ∀ x, l.getLast? = some x → isWS x = false) : stripWS l = l := by
  unfold stripWS
  rw [dropWhile_eq_self_of_head hh]
  rw [dropWhile_eq_self_of_head (fun x hx => hl x (by rwa [List.head?_reverse] at hx))]
  exact List.reverse_reverse l

theorem stripWS_eq_self_of_no_ws {l : Str} (h : ∀ c ∈ l, isWS c = false) :
    stripWS l = l := by
  refine stripWS_eq_self_of_heads (fun x hx => h x ?_) (fun x hx => h x ?_)
  · exact List.mem_of_mem_head? hx
  · exact List.mem_of_mem_getLast? hx

theorem chain'_of_all {R : Char → Char → Prop} :
    ∀ {l : Str}, (∀ a ∈ l, ∀ b ∈ l, R a b) → l.Chain' R
  | [], _ => List.chain'_nil
  | [c], _ => List.chain'_singleton c
  | c1 :: c2 :: rest, h => by
    rw [List.chain'_cons]
    refine ⟨h c1 (List.mem_cons_self _ _)
      c2 (List.mem_cons_of_mem _ (List.mem_cons_self _ _)), ?_⟩
    exact chain'_of_all (fun a ha b hb =>
      h a (List.mem_cons_of_mem _ ha) b (List.mem_cons_of_mem _ hb))

theorem collapsed_of_no_ws {l : Str} (h : ∀ c ∈ l, isWS c = false) : Collapsed l := by
  constructor
  · intro c hc hws
    rw [h c hc] at hws
    exact absurd hws (by simp)
  · rw [noTwoWS_iff]
    exact chain'_of_all (fun a ha _ _ => by
      intro ⟨x, _⟩
      rw [h a ha] at x
      exact absurd x (by simp))

theorem normalize_text_no_ws {w : Str} (h : ∀ c ∈ w, isWS c = false) :
    ∀ c ∈ normalize_text w, isWS c = false := by
  intro c hc
  unfold normalize_text yoStr lowerStr at hc
  rcases List.mem_map.mp hc with ⟨b, hb, hbc⟩
  rcases List.mem_map.mp hb with ⟨a, ha, hab⟩
  rw [← hbc, ← hab, isWS_yoChar, isWS_lowerChar]
  exact h a ha

theorem normalize_alias_of_no_ws {w : Str} (h : ∀ c ∈ w, isWS c = false) :
    normalize_alias w = normalize_text w := by
  unfold normalize_alias
  show stripWS (collapseWS (normalize_text w)) = normalize_text w
  rw [collapsed_fix (collapsed_of_no_ws (normalize_text_no_ws h)),
    stripWS_eq_self_of_no_ws (normalize_text_no_ws h)]

theorem normalize_text_append_space (u v : Str) :
    normalize_text (u ++ ' ' :: v) = normalize_text u ++ ' ' :: normalize_text v := by
  unfold normalize_text yoStr lowerStr
  rw [List.map_append, List.map_append, List.map_cons, List.map_cons]
  rfl

theorem normalize_alias_word_space_word {w : Str} (h : ∀ c ∈ w, isWS c = false)
    (hne : w ≠ []) :
    normalize_alias (w ++ ' ' :: w) = normalize_text w ++ ' ' :: normalize_text w := by
  have hX : yoStr (lowerStr (w ++ ' ' :: w)) =
      normalize_text w ++ ' ' :: normalize_text w := normalize_text_append_space w w
  have hnw := normalize_text_no_ws h
  have hnne : normalize_text w ≠ [] := by
    unfold normalize_text yoStr lowerStr
    simpa using hne
  have hcoll : Collapsed (normalize_text w ++ ' ' :: normalize_text w) := by
    constructor
    · intro c hc hws
      rcases List.mem_append.mp hc with hc' | hc'
      · rw [hnw c hc'] at hws; exact absurd hws (by simp)
      · rcases List.mem_cons.mp hc' with hc'' | hc''
        · exact hc''
        · rw [hnw c hc''] at hws; exact absurd hws (by simp)
    · rw [noTwoWS_iff, List.chain'_append]
      refine ⟨(noTwoWS_iff _).mp (collapsed_of_no_ws hnw).2, ?_, ?_⟩
      · rw [List.chain'_cons']
        refine ⟨?_, (noTwoWS_iff _).mp (collapsed_of_no_ws hnw).2⟩
        intro b hb
        intro ⟨_, hy⟩
        have := hnw b (List.mem_of_mem_head? hb)
        rw [this] at hy
        exact absurd hy (by simp)
      · intro x hx y hy
        intro ⟨hwx, _⟩
        have := hnw x (List.mem_of_mem_getLast? hx)
        rw [this] at hwx
        exact absurd hwx (by simp)
  have hstrip : stripWS (normalize_text w ++ ' ' :: normalize_text w) =
      normalize_text w ++ ' ' :: normalize_text w := by
    obtain ⟨c0, w0, hw0⟩ := List.exists_cons_of_ne_nil hnne
    refine stripWS_eq_self_of_heads ?_ ?_
    · intro x hx
      rw [hw0, List.cons_append, List.head?_cons] at hx
      have hx0 : c0 = x := by simpa using hx
      rw [← hx0]
      exact hnw c0 (by rw [hw0]; exact List.mem_cons_self _ _)
    · intro x hx
      rw [List.getLast?_append_of_ne_nil _ (by simp)] at hx
      have hx2 : (normalize_text w).getLast? = some x := by
        rw [show (' ' :: normalize_text w) = [' '] ++ normalize_text w from rfl,
          List.getLast?_append_of_ne_nil _ hnne] at hx
        exact hx
      exact hnw x (List.mem_of_mem_getLast? hx2)
  unfold normalize_alias
  rw [hX, collapsed_fix hcoll, hstrip]

theorem pySplitAux_space {v : Str} (hv : ∀ c ∈ v, isWS c = false) (hvne : v ≠ []) :
    ∀ (u : Str) (cur : Str), (∀ c ∈ u, isWS c = false) → cur.reverse ++ u ≠ [] →
      pySplitAux (u ++ ' ' :: v) cur = (cur.reverse ++ u) :: pySplit v
  | [], cur, _, hne => by
    show pySplitAux (' ' :: v) cur = (cur.reverse ++ []) :: pySplit v
    have hcur : cur ≠ [] := by
      intro he
      subst he
      simp at hne
    unfold pySplitAux
    rw [if_pos (by decide), if_neg (by simpa using hcur)]
    simp [pySplit]
  | c :: u', cur, hu, _ => by
    show pySplitAux (c :: (u' ++ ' ' :: v)) cur = _
    unfold pySplitAux
    rw [if_neg (by rw [hu c (List.mem_cons_self _ _)]; simp)]
    rw [pySplitAux_space hv hvne u' (c :: cur)
      (fun d hd => hu d (List.mem_cons_of_mem _ hd)) (by simp)]
    simp

theorem pySplit_word_space_word {u v : Str} (hu : ∀ c ∈ u, isWS c = false)
    (hv : ∀ c ∈ v, isWS c = false) (hune : u ≠ []) (hvne : v ≠ []) :
    pySplit (u ++ ' ' :: v) = [u, v] := by
  unfold pySplit
  rw [pySplitAux_space hv hvne u [] hu (by simpa using hune)]
  rw [pySplit_no_ws hv hvne]
  simp

theorem mem_head_filter_pySet_prioritize (E : AliasExpander) (P : Str → Bool)
    {x : Str} (rest : List Str) (h6 : 0 < E.max_aliases) (hx : P x = true) :
    x ∈ prioritize_aliases E (pySet (List.filter P (x :: rest))) := by
  rw [List.filter_cons, if_pos hx, pySet_cons]
  exact head_mem_prioritize h6 _ _

theorem yoChar_ne_dot {c : Char} (h : c ≠ '.') : yoChar c ≠ '.' := by
  unfold yoChar
  split
  · decide
  · exact h

theorem lowerChar_ne_dot {c : Char} (h : c ≠ '.') : lowerChar c ≠ '.' := by
  have hdot : ('.').toNat = 46 := by decide
  by_cases h1 : 65 ≤ c.toNat ∧ c.toNat ≤ 90
  · simp only [lowerChar, if_pos h1]
    intro he
    have h4 := congrArg Char.toNat he
    rw [toNat_ofNat (by omega), hdot] at h4
    omega
  · by_cases h2 : 1040 ≤ c.toNat ∧ c.toNat ≤ 1071
    · simp only [lowerChar, if_neg h1, if_pos h2]
      intro he
      have h4 := congrArg Char.toNat he
      rw [toNat_ofNat (by omega), hdot] at h4
      omega
    · by_cases h3 : 1024 ≤ c.toNat ∧ c.toNat ≤ 1039
      · simp only [lowerChar, if_neg h1, if_neg h2, if_pos h3]
        intro he
        have h4 := congrArg Char.toNat he
        rw [toNat_ofNat (by omega), hdot] at h4
        omega
      · simp only [lowerChar, if_neg h1, if_neg h2, if_neg h3]
        exact h

/-- C10 counterexample: `"Фондович"` is a single word longer than 5
characters ending in the patronymic suffix `ович`, yet the classifier
calls it an organization (its lowercase form contains the organization
keyword `фонд`), and the resulting alias set is exactly the bare
normalized word — the opposite of what the claim states. -/
theorem c10_counterexample :
    is_person_name (str "Фондович") = false ∧
    5 < (str "Фондович").length ∧
    PATRONYMIC_ENDINGS.any (fun e => e.isSuffixOf (lowerStr (str "Фондович"))) = true ∧
    (pySplit (str "Фондович")).length = 1 ∧
    expand_all EW (str "Фондович") (str "иноагенты") = [str "фондович"] := by
  refine ⟨by decide, by decide, by decide, by decide, by decide⟩

/-- C10 amended: for a single-word name `w` (no whitespace) longer than
5 characters whose lowercase form ends in one of the patronymic
suffixes `ович/евич/овна/евна/ичем/ична`, **contains no organization
keyword** and **no dot**, the classifier treats `w` as a person, the
parser returns `(w, None, w)`, and — for any oracle assignment with a
positive alias cap — the alias set contains the duplicated two-word
form `normalize_alias (w ++ " " ++ w)` and never the bare normalized
word itself. -/
theorem c10_amended (E : AliasExpander) (w : Str)
    (h1 : ∀ c ∈ w, isWS c = false) (h2 : 5 < w.length)
    (h3 : PATRONYMIC_ENDINGS.any (fun e => e.isSuffixOf (lowerStr w)) = true)
    (h4 : ORG_KEYWORDS.any (fun kw => isSub kw (lowerStr w)) = false)
    (h5 : '.' ∉ w) (h6 : 0 < E.max_aliases) :
    is_person_name w = true ∧
    parse_person_name w = (w, none, w) ∧
    normalize_alias (w ++ ' ' :: w) ∈ expand_person_name E w ∧
    normalize_alias w ∉ expand_person_name E w := by
  have hne : w ≠ [] := by
    intro he
    subst he
    simp at h2
  have hsplit : pySplit w = [w] := pySplit_no_ws h1 hne
  have hstrip : stripWS w = w := stripWS_eq_self_of_no_ws h1
  have hperson : is_person_name w = true := by
    simp only [is_person_name]
    rw [if_neg (by rw [h4]; simp), hsplit, if_pos (by simp [h2, h3])]
  have hparse : parse_person_name w = (w, none, w) := by
    simp only [parse_person_name]
    rw [hstrip, hsplit]
    simp
  have hnw := normalize_text_no_ws h1
  have hnne : normalize_text w ≠ [] := by
    unfold normalize_text yoStr lowerStr
    simpa using hne
  have hdup := normalize_alias_word_space_word h1 hne
  have hfilter : ((normalize_alias (w ++ ' ' :: w)).contains '.' ||
      decide (2 ≤ (pySplit (normalize_alias (w ++ ' ' :: w))).length)) = true := by
    rw [hdup, pySplit_word_space_word hnw hnw hnne hnne]
    simp
  have hmem : normalize_alias (w ++ ' ' :: w) ∈ expand_person_name E w := by
    unfold expand_person_name
    rw [hparse]
    simp only [expand_name_orders, List.cons_append, List.nil_append, List.map_cons]
    exact mem_head_filter_pySet_prioritize E _ _ h6 hfilter
  have hnot : normalize_alias w ∉ expand_person_name E w := by
    intro hmem2
    rcases expand_person_dot_or_space E w _ hmem2 with hdot | hspace
    · rw [normalize_alias_of_no_ws h1] at hdot
      unfold normalize_text yoStr lowerStr at hdot
      rcases List.mem_map.mp hdot with ⟨b, hb, hbc⟩
      rcases List.mem_map.mp hb with ⟨a, ha, hab⟩
      by_cases hadot : a = '.'
      · exact h5 (hadot ▸ ha)
      · exact yoChar_ne_dot (by rw [← hab]; exact lowerChar_ne_dot hadot) hbc
    · rw [normalize_alias_of_no_ws h1] at hspace
      exact absurd (normalize_text_no_ws h1 ' ' hspace) (by decide)
  exact ⟨hperson, hparse, hmem, hnot⟩

/-- C10 amended, witness: the amended claim at `w = "Рабинович"` on the
service's expander. -/
theorem c10_amended_witness :
    is_person_name (str "Рабинович") = true ∧
    parse_person_name (str "Рабинович") = (str "Рабинович", none, str "Рабинович") ∧
    normalize_alias (str "Рабинович" ++ ' ' :: str "Рабинович") ∈
      expand_person_name EW (str "Рабинович") ∧
    normalize_alias (str "Рабинович") ∉ expand_person_name EW (str "Рабинович") :=
  c10_amended EW (str "Рабинович") (by decide) (by decide) (by decide)
    (by decide) (by decide) (by decide)

end JurCheck
